import Mathlib

/-!
# Verification of the Pireader ingestion/caching/pagination pipeline

Shallow embedding of the text-processing core of the repository
(`book.py`, `bookmarks.py`, `main.py`) and proofs of the specification
claims about it.  Text is modelled as `List Char`; the embedding of the
Python regular-expression substitutions and string methods restricts the
character classes (`\w`, `\s`, `str.split`, `str.strip`) to their ASCII
fragment, which is the fragment the proofs and counterexamples use.
-/

namespace Pireader

/-- A piece of text, modelled as its list of characters. -/
abbrev Str := List Char

/-- ASCII fragment of Python's whitespace class `\s` (also the class used
by `str.split()` and `str.strip()`): space, tab, newline, carriage
return, vertical tab, form feed. -/
def isSpaceChar (c : Char) : Bool :=
  c = ' ' || c = '\t' || c = '\n' || c = '\r' || c = '\x0b' || c = '\x0c'

/-- ASCII fragment of Python's word class `\w`: letters, digits, underscore. -/
def isWordChar (c : Char) : Bool :=
  c.isAlpha || c.isDigit || c = '_'

/-- `str.split()` with no arguments: split on runs of whitespace,
discarding empty tokens.  Accumulator `wacc` holds the current token
reversed. -/
def splitWsAux : Str → Str → List Str
  | wacc, [] => if wacc = [] then [] else [wacc.reverse]
  | wacc, c :: rest =>
    if isSpaceChar c then
      if wacc = [] then splitWsAux [] rest
      else wacc.reverse :: splitWsAux [] rest
    else splitWsAux (c :: wacc) rest

/-- Python `text.split()`: the whitespace-separated tokens of `text`. -/
def splitWs (s : Str) : List Str := splitWsAux [] s

/-- Python `text.split("\n")`: split at every newline, keeping empty
pieces.  The result is always non-empty. -/
def splitOnNl : Str → List Str
  | [] => [[]]
  | c :: rest =>
    if c = '\n' then [] :: splitOnNl rest
    else
      match splitOnNl rest with
      | p :: ps => (c :: p) :: ps
      | [] => [[c]]

/-- Python `s.strip()` (ASCII whitespace). -/
def strip (s : Str) : Str :=
  ((s.dropWhile isSpaceChar).reverse.dropWhile isSpaceChar).reverse

theorem length_dropWhile_le (p : Char → Bool) (l : Str) :
    (l.dropWhile p).length ≤ l.length := by
  induction l with
  | nil => simp [List.dropWhile]
  | cons c rest ih =>
    simp only [List.dropWhile]
    split
    · exact Nat.le_succ_of_le ih
    · exact Nat.le_refl _

/-! ## The text normalizer (`clean_text`, book.py lines 27-34)

Each `re.sub` call is embedded as a left-to-right scan: at each
position the pattern is tried; on a match the replacement is emitted
and scanning resumes after the matched text (Python's `re.sub` never
rescans replaced text); otherwise one character is copied.  For these
particular patterns the greedy-with-backtracking match is computed in
closed form (maximal whitespace runs). -/

/-- Rule 1, `re.sub(r"(\w)'\s+(\w)", r"\1'\2", text)`: a word character,
an apostrophe, at least one whitespace character (greedily, the maximal
run, which must be followed by a word character for the match to
succeed), and a word character.  The whitespace is deleted. -/
def sub1 : Str → Str
  | [] => []
  | a :: rest =>
    if isWordChar a then
      match rest with
      | '\'' :: c0 :: rest3 =>
        -- the whitespace run is `c0` plus the whitespace prefix of `rest3`;
        -- the character after the run (`headD` with a non-word default for
        -- "end of string") must be a word character for the match
        if isSpaceChar c0 then
          if isWordChar ((rest3.dropWhile isSpaceChar).headD '\n') then
            a :: '\'' :: (rest3.dropWhile isSpaceChar).headD '\n' ::
              sub1 (rest3.dropWhile isSpaceChar).tail
          else a :: sub1 ('\'' :: c0 :: rest3)
        else a :: sub1 ('\'' :: c0 :: rest3)
      | r => a :: sub1 r
    else a :: sub1 rest
termination_by s => s.length
decreasing_by
  all_goals simp_wf
  all_goals try omega
  · have h1 := length_dropWhile_le isSpaceChar rest3
    have h2 := List.length_tail (rest3.dropWhile isSpaceChar)
    omega

/-- The letters Python's rule 2 accepts as the contraction tail
(`[tsmd]` with `re.IGNORECASE`). -/
def isTSMD (c : Char) : Bool :=
  c = 't' || c = 's' || c = 'm' || c = 'd' ||
  c = 'T' || c = 'S' || c = 'M' || c = 'D'

/-- `\b` after a word character: the next character is absent or not a
word character. -/
def atWordEnd : Str → Bool
  | [] => true
  | c :: _ => !isWordChar c

/-- Rule 2, `re.sub(r"(\w)'\s+([tsmd])\b", r"\1'\2", text, flags=re.IGNORECASE)`. -/
def sub2 : Str → Str
  | [] => []
  | a :: rest =>
    if isWordChar a then
      match rest with
      | '\'' :: c0 :: rest3 =>
        if isSpaceChar c0 then
          if isTSMD ((rest3.dropWhile isSpaceChar).headD '\n') &&
              atWordEnd (rest3.dropWhile isSpaceChar).tail then
            a :: '\'' :: (rest3.dropWhile isSpaceChar).headD '\n' ::
              sub2 (rest3.dropWhile isSpaceChar).tail
          else a :: sub2 ('\'' :: c0 :: rest3)
        else a :: sub2 ('\'' :: c0 :: rest3)
      | r => a :: sub2 r
    else a :: sub2 rest
termination_by s => s.length
decreasing_by
  all_goals simp_wf
  all_goals try omega
  · have h1 := length_dropWhile_le isSpaceChar rest3
    have h2 := List.length_tail (rest3.dropWhile isSpaceChar)
    omega

/-- Rule 3, `re.sub(r':\s+', ': ', text)`: a colon followed by a
(greedy, maximal) run of at least one whitespace character becomes
colon-space. -/
def sub3 : Str → Str
  | [] => []
  | ':' :: c :: rest =>
    if isSpaceChar c then ':' :: ' ' :: sub3 (rest.dropWhile isSpaceChar)
    else ':' :: sub3 (c :: rest)
  | c :: rest => c :: sub3 rest
termination_by s => s.length
decreasing_by
  all_goals simp_wf
  all_goals try omega
  · have := length_dropWhile_le isSpaceChar rest
    omega

/-- Rule 4, `re.sub(r'\.\s{2,}', '. ', text)`: a period followed by a
(greedy, maximal) run of at least two whitespace characters becomes
period-space. -/
def sub4 : Str → Str
  | [] => []
  | '.' :: c :: d :: rest =>
    if isSpaceChar c && isSpaceChar d then
      '.' :: ' ' :: sub4 (rest.dropWhile isSpaceChar)
    else '.' :: sub4 (c :: d :: rest)
  | c :: rest => c :: sub4 rest
termination_by s => s.length
decreasing_by
  all_goals simp_wf
  all_goals try omega
  · have := length_dropWhile_le isSpaceChar rest
    omega

/-- The suffix of a whitespace run that follows its last newline. -/
def afterLastNl (run : Str) : Str :=
  (run.reverse.takeWhile (fun d => d ≠ '\n')).reverse

theorem length_takeWhile_le (p : Char → Bool) (l : Str) :
    (l.takeWhile p).length ≤ l.length := by
  induction l with
  | nil => simp [List.takeWhile]
  | cons c rest ih =>
    simp only [List.takeWhile]
    split
    · simpa using ih
    · simp

theorem length_afterLastNl_le (l : Str) : (afterLastNl l).length ≤ l.length := by
  have := length_takeWhile_le (fun d => d ≠ '\n') l.reverse
  simpa [afterLastNl] using this

/-- Rule 5, `re.sub(r'\n\s*\n\s*\n+', '\n\n', text)`: starting at a
newline whose maximal whitespace run contains at least three newlines,
the run up to and including its last newline becomes two newlines
(whitespace after the last newline of the run is kept). -/
def sub5 : Str → Str
  | [] => []
  | c :: rest =>
    if c = '\n' then
      if 2 ≤ (rest.takeWhile isSpaceChar).count '\n' then
        -- the match extends to the last newline of the maximal run
        '\n' :: '\n' ::
          sub5 (afterLastNl (rest.takeWhile isSpaceChar) ++ rest.dropWhile isSpaceChar)
      else c :: sub5 rest
    else c :: sub5 rest
termination_by s => s.length
decreasing_by
  all_goals simp_wf
  all_goals try omega
  · have h1 := length_takeWhile_le isSpaceChar rest
    have h2 := length_dropWhile_le isSpaceChar rest
    have h3 := length_afterLastNl_le (rest.takeWhile isSpaceChar)
    have h4 : (rest.takeWhile isSpaceChar).length +
        (rest.dropWhile isSpaceChar).length = rest.length := by
      have hlen := congrArg List.length
        (List.takeWhile_append_dropWhile (p := isSpaceChar) (l := rest))
      rw [List.length_append] at hlen
      exact hlen
    omega

/-- `clean_text` (book.py): the five substitutions applied in order. -/
def clean_text (s : Str) : Str := sub5 (sub4 (sub3 (sub2 (sub1 s))))

/-! ### Invariants of the normalizer's output

`ok3`/`ok4`/`ok5` say a text contains no site the third/fourth/fifth
rule would still rewrite: every colon followed by whitespace is followed
by exactly one space and then a non-space; no period is followed by two
whitespace characters; no newline heads a whitespace run holding two
more newlines.  The idempotence proof shows each rule establishes its
invariant, the later rules preserve the earlier ones, and each rule is
the identity on texts satisfying its invariant. -/

/-- The first character, if any, is not whitespace. -/
def headNotWs : Str → Bool
  | [] => true
  | c :: _ => !isSpaceChar c

/-- What may follow a colon in rule 3's normal form. -/
def colonOk : Str → Bool
  | [] => true
  | c :: rest => !isSpaceChar c || (c = ' ' && headNotWs rest)

/-- No colon is followed by a whitespace run other than a single space. -/
def ok3 : Str → Bool
  | [] => true
  | c :: rest => (if c = ':' then colonOk rest else true) && ok3 rest

/-- What may follow a period in rule 4's normal form. -/
def dotOk : Str → Bool
  | c :: d :: _ => !(isSpaceChar c && isSpaceChar d)
  | _ => true

/-- No period is followed by two or more whitespace characters. -/
def ok4 : Str → Bool
  | [] => true
  | c :: rest => (if c = '.' then dotOk rest else true) && ok4 rest

/-- No newline starts a whitespace run containing two more newlines. -/
def ok5 : Str → Bool
  | [] => true
  | c :: rest =>
    (if c = '\n' then decide ((rest.takeWhile isSpaceChar).count '\n' ≤ 1) else true)
      && ok5 rest

theorem headNotWs_dropWhile (l : Str) :
    headNotWs (l.dropWhile isSpaceChar) = true := by
  induction l with
  | nil => rfl
  | cons c rest ih =>
    simp only [List.dropWhile]
    split
    · exact ih
    · rename_i h
      simp [headNotWs, h]

theorem dropWhile_eq_self_of_headNotWs (l : Str) (h : headNotWs l = true) :
    l.dropWhile isSpaceChar = l := by
  cases l with
  | nil => rfl
  | cons c rest =>
    simp only [headNotWs, Bool.not_eq_true'] at h
    simp [List.dropWhile, h]

theorem takeWhile_eq_nil_of_headNotWs (l : Str) (h : headNotWs l = true) :
    l.takeWhile isSpaceChar = [] := by
  cases l with
  | nil => rfl
  | cons c rest =>
    simp only [headNotWs, Bool.not_eq_true'] at h
    simp [List.takeWhile, h]

theorem takeWhile_append_of_all (p : Char → Bool) (A B : Str)
    (h : ∀ a ∈ A, p a = true) :
    (A ++ B).takeWhile p = A ++ B.takeWhile p := by
  induction A with
  | nil => simp
  | cons a A ih =>
    have ha : p a = true := h a (List.mem_cons_self a A)
    simp only [List.cons_append, List.takeWhile, ha, List.append_eq]
    rw [ih (fun x hx => h x (List.mem_cons_of_mem a hx))]

theorem dropWhile_append_of_all (p : Char → Bool) (A B : Str)
    (h : ∀ a ∈ A, p a = true) :
    (A ++ B).dropWhile p = B.dropWhile p := by
  induction A with
  | nil => simp
  | cons a A ih =>
    have ha : p a = true := h a (List.mem_cons_self a A)
    simp only [List.cons_append, List.dropWhile, ha]
    exact ih (fun x hx => h x (List.mem_cons_of_mem a hx))

/-- Tail closure for `ok3`. -/
theorem ok3_tail {c : Char} {l : Str} (h : ok3 (c :: l) = true) : ok3 l = true := by
  simp only [ok3, Bool.and_eq_true] at h
  exact h.2

theorem ok4_tail {c : Char} {l : Str} (h : ok4 (c :: l) = true) : ok4 l = true := by
  simp only [ok4, Bool.and_eq_true] at h
  exact h.2

theorem ok3_dropWhile {l : Str} (h : ok3 l = true) :
    ok3 (l.dropWhile isSpaceChar) = true := by
  induction l with
  | nil => exact h
  | cons c rest ih =>
    simp only [List.dropWhile]
    split
    · exact ih (ok3_tail h)
    · exact h

theorem ok4_dropWhile {l : Str} (h : ok4 l = true) :
    ok4 (l.dropWhile isSpaceChar) = true := by
  induction l with
  | nil => exact h
  | cons c rest ih =>
    simp only [List.dropWhile]
    split
    · exact ih (ok4_tail h)
    · exact h

theorem ok3_append_of_no_colon {A B : Str} (h : ∀ a ∈ A, a ≠ ':') :
    ok3 (A ++ B) = ok3 B := by
  induction A with
  | nil => simp
  | cons a A ih =>
    have ha : a ≠ ':' := h a (List.mem_cons_self a A)
    simp only [List.cons_append, ok3, if_neg ha, Bool.true_and]
    exact ih (fun x hx => h x (List.mem_cons_of_mem a hx))

theorem ok4_append_of_no_dot {A B : Str} (h : ∀ a ∈ A, a ≠ '.') :
    ok4 (A ++ B) = ok4 B := by
  induction A with
  | nil => simp
  | cons a A ih =>
    have ha : a ≠ '.' := h a (List.mem_cons_self a A)
    simp only [List.cons_append, ok4, if_neg ha, Bool.true_and]
    exact ih (fun x hx => h x (List.mem_cons_of_mem a hx))

theorem ok5_append_of_no_nl {A B : Str} (h : ∀ a ∈ A, a ≠ '\n') :
    ok5 (A ++ B) = ok5 B := by
  induction A with
  | nil => simp
  | cons a A ih =>
    have ha : a ≠ '\n' := h a (List.mem_cons_self a A)
    simp only [List.cons_append, ok5, if_neg ha, Bool.true_and]
    exact ih (fun x hx => h x (List.mem_cons_of_mem a hx))

/-! ### Unfolding lemmas for the substitution scanners -/

theorem sub3_nil : sub3 [] = [] := by simp [sub3]

theorem sub3_colon_ws (c : Char) (rest : Str) (h : isSpaceChar c = true) :
    sub3 (':' :: c :: rest) = ':' :: ' ' :: sub3 (rest.dropWhile isSpaceChar) := by
  simp [sub3, h]

theorem sub3_colon_nws (c : Char) (rest : Str) (h : isSpaceChar c = false) :
    sub3 (':' :: c :: rest) = ':' :: sub3 (c :: rest) := by
  simp [sub3, h]

theorem sub3_colon_nil : sub3 [':'] = [':'] := by simp [sub3]

theorem sub3_cons_ne (c : Char) (rest : Str) (h : c ≠ ':') :
    sub3 (c :: rest) = c :: sub3 rest := by
  rw [sub3.eq_def]
  split
  · rename_i heq
    exact absurd heq (List.cons_ne_nil c rest)
  · rename_i c2 r2 heq
    injection heq with h1 h2
    exact absurd h1 h
  · rename_i c2 r2 hno heq
    injection heq with h1 h2
    rw [h1, h2]

theorem sub4_nil : sub4 [] = [] := by simp [sub4]

theorem sub4_dot_ws (c d : Char) (rest : Str)
    (h1 : isSpaceChar c = true) (h2 : isSpaceChar d = true) :
    sub4 ('.' :: c :: d :: rest) = '.' :: ' ' :: sub4 (rest.dropWhile isSpaceChar) := by
  simp [sub4, h1, h2]

theorem sub4_dot_nws (c d : Char) (rest : Str)
    (h : (isSpaceChar c && isSpaceChar d) = false) :
    sub4 ('.' :: c :: d :: rest) = '.' :: sub4 (c :: d :: rest) := by
  simp [sub4, h]

theorem sub4_dot_nil : sub4 ['.'] = ['.'] := by simp [sub4]

theorem sub4_dot_one (d : Char) : sub4 ['.', d] = '.' :: sub4 [d] := by
  simp [sub4]

theorem sub4_cons_ne (c : Char) (rest : Str) (h : c ≠ '.') :
    sub4 (c :: rest) = c :: sub4 rest := by
  rw [sub4.eq_def]
  split
  · rename_i heq
    exact absurd heq (List.cons_ne_nil c rest)
  · rename_i c2 d2 r2 heq
    injection heq with h1 h2
    exact absurd h1 h
  · rename_i c2 r2 hno heq
    injection heq with h1 h2
    rw [h1, h2]

theorem sub5_nil : sub5 [] = [] := by simp [sub5]

theorem sub5_nl_hit (rest : Str)
    (h : 2 ≤ (rest.takeWhile isSpaceChar).count '\n') :
    sub5 ('\n' :: rest) =
      '\n' :: '\n' ::
        sub5 (afterLastNl (rest.takeWhile isSpaceChar) ++ rest.dropWhile isSpaceChar) := by
  simp [sub5, h]

theorem sub5_nl_miss (rest : Str)
    (h : ¬ 2 ≤ (rest.takeWhile isSpaceChar).count '\n') :
    sub5 ('\n' :: rest) = '\n' :: sub5 rest := by
  simp [sub5, h]

theorem sub5_cons_ne (c : Char) (rest : Str) (h : c ≠ '\n') :
    sub5 (c :: rest) = c :: sub5 rest := by
  simp [sub5, h]

/-! ### The scanners preserve the first character -/

theorem sub3_head? (l : Str) : (sub3 l).head? = l.head? := by
  match l with
  | [] => rw [sub3_nil]; all_goals rfl
  | [':'] => rw [sub3_colon_nil]; all_goals rfl
  | ':' :: c :: rest =>
    by_cases h : isSpaceChar c = true
    · rw [sub3_colon_ws c rest h]; all_goals rfl
    · rw [sub3_colon_nws c rest (by simpa using h)]; all_goals rfl
  | c :: rest =>
    by_cases h : c = ':'
    · subst h
      match rest with
      | [] => rw [sub3_colon_nil]; all_goals rfl
      | c2 :: r2 =>
        by_cases h2 : isSpaceChar c2 = true
        · rw [sub3_colon_ws c2 r2 h2]; all_goals rfl
        · rw [sub3_colon_nws c2 r2 (by simpa using h2)]; all_goals rfl
    · rw [sub3_cons_ne c rest h]; all_goals rfl

theorem sub4_head? (l : Str) : (sub4 l).head? = l.head? := by
  match l with
  | [] => rw [sub4_nil]; all_goals rfl
  | c :: rest =>
    by_cases h : c = '.'
    · subst h
      match rest with
      | [] => rw [sub4_dot_nil]; all_goals rfl
      | [d] => rw [sub4_dot_one]; all_goals rfl
      | c2 :: d2 :: r2 =>
        by_cases h2 : (isSpaceChar c2 && isSpaceChar d2) = true
        · rw [sub4_dot_ws c2 d2 r2 (by simp_all) (by simp_all)]; all_goals rfl
        · rw [sub4_dot_nws c2 d2 r2 (by simpa using h2)]; all_goals rfl
    · rw [sub4_cons_ne c rest h]; all_goals rfl

theorem sub5_head? (l : Str) : (sub5 l).head? = l.head? := by
  match l with
  | [] => rw [sub5_nil]; all_goals rfl
  | c :: rest =>
    by_cases h : c = '\n'
    · subst h
      by_cases h2 : 2 ≤ (rest.takeWhile isSpaceChar).count '\n'
      · rw [sub5_nl_hit rest h2]; all_goals rfl
      · rw [sub5_nl_miss rest h2]; all_goals rfl
    · rw [sub5_cons_ne c rest h]; all_goals rfl

theorem headNotWs_of_head?_eq {a b : Str} (h : a.head? = b.head?) :
    headNotWs a = headNotWs b := by
  cases a <;> cases b <;> simp_all [headNotWs]

end Pireader

namespace Pireader

/-! ### Each rule is the identity on texts satisfying its invariant -/

theorem sub3_id_of_ok3 (s : Str) (h : ok3 s = true) : sub3 s = s := by
  induction s using sub3.induct with
  | case1 => exact sub3_nil
  | case2 c rest hws ih =>
    simp only [ok3, if_pos rfl, Bool.and_eq_true] at h
    obtain ⟨hc, hrest⟩ := h
    rw [if_pos trivial] at hc
    simp only [colonOk, hws, Bool.not_true, Bool.false_or, Bool.and_eq_true,
      decide_eq_true_eq] at hc
    obtain ⟨hsp, hnw⟩ := hc
    have hdw : rest.dropWhile isSpaceChar = rest :=
      dropWhile_eq_self_of_headNotWs rest hnw
    rw [sub3_colon_ws c rest hws, ih (by rw [hdw]; exact hrest.2), hdw, hsp]
  | case3 c rest hws ih =>
    rw [sub3_colon_nws c rest (by simpa using hws)]
    rw [ih (ok3_tail h)]
  | case4 c rest hne ih =>
    by_cases hc : c = ':'
    · subst hc
      cases rest with
      | nil => exact sub3_colon_nil
      | cons d r => exact absurd rfl (fun hh => hne d r rfl hh)
    · rw [sub3_cons_ne c rest hc, ih (ok3_tail h)]

end Pireader

namespace Pireader

theorem ok5_tail {c : Char} {l : Str} (h : ok5 (c :: l) = true) : ok5 l = true := by
  simp only [ok5, Bool.and_eq_true] at h
  exact h.2

theorem sub4_id_of_ok4 (s : Str) (h : ok4 s = true) : sub4 s = s := by
  induction s using sub4.induct with
  | case1 => exact sub4_nil
  | case2 c d rest hws ih =>
    exfalso
    simp only [ok4, if_pos rfl, Bool.and_eq_true] at h
    have hd := h.1
    simp only [dotOk, hws] at hd
    exact Bool.false_ne_true hd
  | case3 c d rest hws ih =>
    rw [sub4_dot_nws c d rest (by simpa using hws)]
    rw [ih (ok4_tail h)]
  | case4 c rest hne ih =>
    by_cases hc : c = '.'
    · subst hc
      cases rest with
      | nil => exact sub4_dot_nil
      | cons d r =>
        cases r with
        | nil => rw [sub4_dot_one, ih (ok4_tail h)]
        | cons e r2 => exact absurd rfl (fun hh => hne d e r2 rfl hh)
    · rw [sub4_cons_ne c rest hc, ih (ok4_tail h)]

theorem sub5_id_of_ok5 (s : Str) (h : ok5 s = true) : sub5 s = s := by
  induction s using sub5.induct with
  | case1 => exact sub5_nil
  | case2 rest hhit ih =>
    exfalso
    simp only [ok5, if_pos rfl, if_true, Bool.and_eq_true, decide_eq_true_eq] at h
    omega
  | case3 rest hmiss ih =>
    rw [sub5_nl_miss rest hmiss, ih (ok5_tail h)]
  | case4 c rest hnl ih =>
    rw [sub5_cons_ne c rest hnl, ih (ok5_tail h)]

end Pireader

namespace Pireader

/-! ### Each rule establishes its invariant -/

theorem mem_takeWhile_pred {p : Char → Bool} {l : Str} {a : Char}
    (h : a ∈ l.takeWhile p) : p a = true := by
  induction l with
  | nil => simp [List.takeWhile] at h
  | cons c rest ih =>
    simp only [List.takeWhile] at h
    revert h
    split
    · intro h
      rcases List.mem_cons.mp h with h1 | h1
      · subst h1; assumption
      · exact ih h1
    · intro h
      simp at h

theorem mem_of_mem_takeWhile {p : Char → Bool} {l : Str} {a : Char}
    (h : a ∈ l.takeWhile p) : a ∈ l := by
  induction l with
  | nil => simp [List.takeWhile] at h
  | cons c rest ih =>
    simp only [List.takeWhile] at h
    revert h
    split
    · intro h
      rcases List.mem_cons.mp h with h1 | h1
      · subst h1; exact List.mem_cons_self _ _
      · exact List.mem_cons_of_mem _ (ih h1)
    · intro h
      simp at h

theorem mem_afterLastNl_ne_nl {l : Str} {a : Char} (h : a ∈ afterLastNl l) :
    a ≠ '\n' := by
  rw [afterLastNl, List.mem_reverse] at h
  have := mem_takeWhile_pred h
  simpa using this

theorem mem_afterLastNl_mem {l : Str} {a : Char} (h : a ∈ afterLastNl l) :
    a ∈ l := by
  rw [afterLastNl, List.mem_reverse] at h
  have := mem_of_mem_takeWhile h
  simpa using this

theorem exists_cons_of_head? {l : Str} {c : Char} (h : l.head? = some c) :
    ∃ t, l = c :: t := by
  cases l with
  | nil => simp at h
  | cons d t =>
    simp only [List.head?_cons, Option.some.injEq] at h
    exact ⟨t, by rw [h]⟩

theorem ok3_cons (c : Char) (rest : Str) :
    ok3 (c :: rest) = ((if c = ':' then colonOk rest else true) && ok3 rest) := rfl

theorem ok4_cons (c : Char) (rest : Str) :
    ok4 (c :: rest) = ((if c = '.' then dotOk rest else true) && ok4 rest) := rfl

theorem ok5_cons (c : Char) (rest : Str) :
    ok5 (c :: rest) =
      ((if c = '\n' then decide ((rest.takeWhile isSpaceChar).count '\n' ≤ 1) else true)
        && ok5 rest) := rfl

theorem ok3_sub3 (s : Str) : ok3 (sub3 s) = true := by
  induction s using sub3.induct with
  | case1 => rw [sub3_nil]; rfl
  | case2 c rest hws ih =>
    rw [sub3_colon_ws c rest hws]
    have hh : headNotWs (sub3 (rest.dropWhile isSpaceChar)) = true := by
      rw [headNotWs_of_head?_eq (sub3_head? _)]
      exact headNotWs_dropWhile rest
    rw [ok3_cons, ok3_cons, if_pos rfl, if_neg (by decide : ¬ (' ' = ':'))]
    rw [colonOk, hh]
    simp [ih]
  | case3 c rest hws ih =>
    rw [sub3_colon_nws c rest (by simpa using hws)]
    obtain ⟨t, ht⟩ := exists_cons_of_head? (l := sub3 (c :: rest)) (c := c)
      (by rw [sub3_head?]; rfl)
    rw [ht]
    rw [ht] at ih
    rw [ok3_cons, if_pos rfl, colonOk]
    have hc : isSpaceChar c = false := by simpa using hws
    rw [hc]
    simpa using ih
  | case4 c rest hne ih =>
    by_cases hc : c = ':'
    · subst hc
      cases rest with
      | nil => rw [sub3_colon_nil]; rfl
      | cons d r => exact absurd rfl (fun hh => hne d r rfl hh)
    · rw [sub3_cons_ne c rest hc]
      rw [ok3_cons, if_neg hc]
      simpa using ih

end Pireader

namespace Pireader

theorem dotOk_space_of_headNotWs {t : Str} (h : headNotWs t = true) :
    dotOk (' ' :: t) = true := by
  cases t with
  | nil => rfl
  | cons e r =>
    simp only [headNotWs, Bool.not_eq_true'] at h
    simp [dotOk, h]

theorem sub4_singleton (d : Char) : sub4 [d] = [d] := by
  by_cases h : d = '.'
  · subst h; exact sub4_dot_nil
  · rw [sub4_cons_ne d [] h, sub4_nil]

theorem ok4_sub4 (s : Str) : ok4 (sub4 s) = true := by
  induction s using sub4.induct with
  | case1 => rw [sub4_nil]; rfl
  | case2 c d rest hws ih =>
    rw [sub4_dot_ws c d rest (by simp_all) (by simp_all)]
    have hh : headNotWs (sub4 (rest.dropWhile isSpaceChar)) = true := by
      rw [headNotWs_of_head?_eq (sub4_head? _)]
      exact headNotWs_dropWhile rest
    rw [ok4_cons, if_pos rfl, dotOk_space_of_headNotWs hh]
    rw [ok4_cons, if_neg (by decide : ¬ (' ' = '.'))]
    simp [ih]
  | case3 c d rest hws ih =>
    rw [sub4_dot_nws c d rest (by simpa using hws)]
    rw [ok4_cons, if_pos rfl]
    have hdot : dotOk (sub4 (c :: d :: rest)) = true := by
      by_cases hcw : isSpaceChar c = true
      · -- then `d` is not whitespace, and the scanner keeps `c :: d` intact
        have hcd : c ≠ '.' := by
          intro hcc
          subst hcc
          exact absurd hcw (by decide)
        rw [sub4_cons_ne c (d :: rest) hcd]
        obtain ⟨t, ht⟩ := exists_cons_of_head? (l := sub4 (d :: rest)) (c := d)
          (by rw [sub4_head?]; rfl)
        rw [ht, dotOk]
        have hdw : isSpaceChar d = false := by
          cases hd : isSpaceChar d
          · rfl
          · exact absurd (show (isSpaceChar c && isSpaceChar d) = true by rw [hcw, hd]; rfl) hws
        simp [hcw, hdw]
      · obtain ⟨t, ht⟩ := exists_cons_of_head? (l := sub4 (c :: d :: rest)) (c := c)
          (by rw [sub4_head?]; rfl)
        rw [ht]
        cases t with
        | nil => rfl
        | cons e r =>
          have hcf : isSpaceChar c = false := by simpa using hcw
          simp [dotOk, hcf]
    rw [hdot]
    simpa using ih
  | case4 c rest hne ih =>
    by_cases hc : c = '.'
    · subst hc
      cases rest with
      | nil => rw [sub4_dot_nil]; rfl
      | cons d r =>
        cases r with
        | nil =>
          rw [sub4_singleton] at ih
          rw [sub4_dot_one, ok4_cons, if_pos rfl, sub4_singleton]
          have hdo : dotOk [d] = true := rfl
          rw [hdo]
          simpa using ih
        | cons e r2 => exact absurd rfl (fun hh => hne d e r2 rfl hh)
    · rw [sub4_cons_ne c rest hc, ok4_cons, if_neg hc]
      simpa using ih

end Pireader

namespace Pireader

theorem sub5_append_nonl (A l : Str) (h : ∀ a ∈ A, a ≠ '\n') :
    sub5 (A ++ l) = A ++ sub5 l := by
  induction A with
  | nil => simp
  | cons a A ih =>
    rw [List.cons_append, sub5_cons_ne a _ (h a (List.mem_cons_self a A)),
      ih (fun x hx => h x (List.mem_cons_of_mem a hx)), List.cons_append]

theorem sub5_split_of_low_count (l : Str)
    (h : (l.takeWhile isSpaceChar).count '\n' ≤ 1) :
    sub5 l = l.takeWhile isSpaceChar ++ sub5 (l.dropWhile isSpaceChar) := by
  induction l with
  | nil => simp [sub5_nil]
  | cons c rest ih =>
    by_cases hw : isSpaceChar c = true
    · have hTW : (c :: rest).takeWhile isSpaceChar = c :: rest.takeWhile isSpaceChar := by
        simp [List.takeWhile, hw]
      have hDW : (c :: rest).dropWhile isSpaceChar = rest.dropWhile isSpaceChar := by
        simp [List.dropWhile, hw]
      rw [hTW] at h
      rw [List.count_cons] at h
      by_cases hnl : c = '\n'
      · subst hnl
        have h0 : (rest.takeWhile isSpaceChar).count '\n' ≤ 1 := by
          simp at h
          omega
        have hm : ¬ 2 ≤ (rest.takeWhile isSpaceChar).count '\n' := by
          simp at h
          omega
        rw [sub5_nl_miss rest hm, ih h0, hTW, hDW, List.cons_append]
      · have h0 : (rest.takeWhile isSpaceChar).count '\n' ≤ 1 := by
          simp [hnl] at h
          omega
        rw [sub5_cons_ne c rest hnl, ih h0, hTW, hDW, List.cons_append]
    · have hTW : (c :: rest).takeWhile isSpaceChar = [] := by
        simp [List.takeWhile, hw]
      have hDW : (c :: rest).dropWhile isSpaceChar = c :: rest := by
        simp [List.dropWhile, hw]
      rw [hTW, hDW, List.nil_append]

theorem ok5_sub5 (s : Str) : ok5 (sub5 s) = true := by
  induction s using sub5.induct with
  | case1 => rw [sub5_nil]; rfl
  | case2 rest hhit ih =>
    rw [sub5_nl_hit rest hhit]
    have hA : ∀ a ∈ afterLastNl (rest.takeWhile isSpaceChar), a ≠ '\n' :=
      fun a ha => mem_afterLastNl_ne_nl ha
    have hAws : ∀ a ∈ afterLastNl (rest.takeWhile isSpaceChar), isSpaceChar a = true :=
      fun a ha => mem_takeWhile_pred (mem_afterLastNl_mem ha)
    have hsplit :
        sub5 (afterLastNl (rest.takeWhile isSpaceChar) ++ rest.dropWhile isSpaceChar)
          = afterLastNl (rest.takeWhile isSpaceChar)
              ++ sub5 (rest.dropWhile isSpaceChar) :=
      sub5_append_nonl _ _ hA
    have hTW :
        (afterLastNl (rest.takeWhile isSpaceChar)
            ++ sub5 (rest.dropWhile isSpaceChar)).takeWhile isSpaceChar
          = afterLastNl (rest.takeWhile isSpaceChar) := by
      have hD : headNotWs (sub5 (rest.dropWhile isSpaceChar)) = true := by
        rw [headNotWs_of_head?_eq (sub5_head? (rest.dropWhile isSpaceChar))]
        exact headNotWs_dropWhile rest
      rw [takeWhile_append_of_all _ _ _ hAws, takeWhile_eq_nil_of_headNotWs _ hD]
      simp
    have hcount0 : (afterLastNl (rest.takeWhile isSpaceChar)).count '\n' = 0 :=
      List.count_eq_zero.mpr (fun hmem => hA _ hmem rfl)
    rw [hsplit] at ih ⊢
    rw [ok5_cons, if_pos rfl, ok5_cons, if_pos rfl]
    have hg2 :
        ((afterLastNl (rest.takeWhile isSpaceChar)
            ++ sub5 (rest.dropWhile isSpaceChar)).takeWhile isSpaceChar).count '\n' ≤ 1 := by
      rw [hTW, hcount0]
      omega
    have hg1 :
        (('\n' :: (afterLastNl (rest.takeWhile isSpaceChar)
            ++ sub5 (rest.dropWhile isSpaceChar))).takeWhile isSpaceChar).count '\n' ≤ 1 := by
      have : isSpaceChar '\n' = true := rfl
      rw [List.takeWhile_cons, if_pos this, List.count_cons, hTW, hcount0]
      simp
    simp [hg1, hg2, ih]
  | case3 rest hmiss ih =>
    rw [sub5_nl_miss rest hmiss]
    rw [ok5_cons, if_pos rfl]
    have hs := sub5_split_of_low_count rest (by omega)
    have hTW : (sub5 rest).takeWhile isSpaceChar = rest.takeWhile isSpaceChar := by
      have hD : headNotWs (sub5 (rest.dropWhile isSpaceChar)) = true := by
        rw [headNotWs_of_head?_eq (sub5_head? (rest.dropWhile isSpaceChar))]
        exact headNotWs_dropWhile rest
      rw [hs, takeWhile_append_of_all _ _ _ (fun a ha => mem_takeWhile_pred ha),
        takeWhile_eq_nil_of_headNotWs _ hD]
      simp
    have hg : ((sub5 rest).takeWhile isSpaceChar).count '\n' ≤ 1 := by
      rw [hTW]
      omega
    simp [hg, ih]
  | case4 c rest hnl ih =>
    rw [sub5_cons_ne c rest hnl, ok5_cons, if_neg hnl]
    simpa using ih

end Pireader

namespace Pireader

/-! ### Later rules preserve the earlier invariants -/

theorem ws_ne_colon {a : Char} (h : isSpaceChar a = true) : a ≠ ':' := by
  intro hc
  subst hc
  exact absurd h (by decide)

theorem ws_ne_dot {a : Char} (h : isSpaceChar a = true) : a ≠ '.' := by
  intro hc
  subst hc
  exact absurd h (by decide)

theorem colonOk_elim {d : Char} {r : Str} (h : colonOk (d :: r) = true) :
    isSpaceChar d = false ∨ (d = ' ' ∧ headNotWs r = true) := by
  simp only [colonOk, Bool.or_eq_true, Bool.not_eq_true', Bool.and_eq_true,
    decide_eq_true_eq] at h
  exact h

theorem sub5_singleton (d : Char) : sub5 [d] = [d] := by
  by_cases h : d = '\n'
  · subst h
    rw [sub5_nl_miss [] (by simp [List.takeWhile])]
    rw [sub5_nil]
  · rw [sub5_cons_ne d [] h, sub5_nil]

theorem ok3_sub4 (s : Str) : ok3 s = true → ok3 (sub4 s) = true := by
  induction s using sub4.induct with
  | case1 => intro h; rw [sub4_nil]; exact h
  | case2 c d rest hws ih =>
    intro h
    rw [sub4_dot_ws c d rest (by simp_all) (by simp_all)]
    have hm : ok3 (rest.dropWhile isSpaceChar) = true :=
      ok3_dropWhile (ok3_tail (ok3_tail (ok3_tail h)))
    rw [ok3_cons, if_neg (by decide : ¬ ('.' = ':'))]
    rw [ok3_cons, if_neg (by decide : ¬ (' ' = ':'))]
    simp [ih hm]
  | case3 c d rest hws ih =>
    intro h
    rw [sub4_dot_nws c d rest (by simpa using hws)]
    rw [ok3_cons, if_neg (by decide : ¬ ('.' = ':'))]
    simp [ih (ok3_tail h)]
  | case4 c rest hne ih =>
    intro h
    by_cases hc : c = '.'
    · subst hc
      cases rest with
      | nil => rw [sub4_dot_nil]; exact h
      | cons d r =>
        cases r with
        | nil =>
          rw [sub4_dot_one, sub4_singleton]
          exact h
        | cons e r2 => exact absurd rfl (fun hh => hne d e r2 rfl hh)
    · rw [sub4_cons_ne c rest hc]
      by_cases hcol : c = ':'
      · subst hcol
        rw [ok3_cons, if_pos rfl]
        rw [ok3_cons, if_pos rfl] at h
        rw [Bool.and_eq_true] at h
        have hco : colonOk (sub4 rest) = true := by
          cases rest with
          | nil => rw [sub4_nil]; rfl
          | cons d r2 =>
            rcases colonOk_elim h.1 with hd | ⟨hd, hr⟩
            · obtain ⟨t, ht⟩ := exists_cons_of_head? (l := sub4 (d :: r2)) (c := d)
                (by rw [sub4_head?]; rfl)
              rw [ht, colonOk, hd]
              rfl
            · subst hd
              rw [sub4_cons_ne ' ' r2 (by decide)]
              rw [colonOk]
              rw [headNotWs_of_head?_eq (sub4_head? r2), hr]
              simp
        rw [hco]
        simp [ih h.2]
      · rw [ok3_cons, if_neg hcol]
        simp [ih (ok3_tail h)]

theorem ok3_sub5 (s : Str) : ok3 s = true → ok3 (sub5 s) = true := by
  induction s using sub5.induct with
  | case1 => intro h; rw [sub5_nil]; exact h
  | case2 rest hhit ih =>
    intro h
    rw [sub5_nl_hit rest hhit]
    have hA : ∀ a ∈ afterLastNl (rest.takeWhile isSpaceChar), a ≠ ':' :=
      fun a ha => ws_ne_colon (mem_takeWhile_pred (mem_afterLastNl_mem ha))
    have hAD : ok3 (afterLastNl (rest.takeWhile isSpaceChar)
        ++ rest.dropWhile isSpaceChar) = true := by
      rw [ok3_append_of_no_colon hA]
      exact ok3_dropWhile (ok3_tail h)
    rw [ok3_cons, if_neg (by decide : ¬ ('\n' = ':'))]
    rw [ok3_cons, if_neg (by decide : ¬ ('\n' = ':'))]
    simp [ih hAD]
  | case3 rest hmiss ih =>
    intro h
    rw [sub5_nl_miss rest hmiss]
    rw [ok3_cons, if_neg (by decide : ¬ ('\n' = ':'))]
    simp [ih (ok3_tail h)]
  | case4 c rest hnl ih =>
    intro h
    rw [sub5_cons_ne c rest hnl]
    by_cases hcol : c = ':'
    · subst hcol
      rw [ok3_cons, if_pos rfl]
      rw [ok3_cons, if_pos rfl] at h
      rw [Bool.and_eq_true] at h
      have hco : colonOk (sub5 rest) = true := by
        cases rest with
        | nil => rw [sub5_nil]; rfl
        | cons d r2 =>
          rcases colonOk_elim h.1 with hd | ⟨hd, hr⟩
          · obtain ⟨t, ht⟩ := exists_cons_of_head? (l := sub5 (d :: r2)) (c := d)
              (by rw [sub5_head?]; rfl)
            rw [ht, colonOk, hd]
            rfl
          · subst hd
            rw [sub5_cons_ne ' ' r2 (by decide)]
            rw [colonOk]
            rw [headNotWs_of_head?_eq (sub5_head? r2), hr]
            simp
      rw [hco]
      simp [ih h.2]
    · rw [ok3_cons, if_neg hcol]
      simp [ih (ok3_tail h)]

theorem ok4_sub5 (s : Str) : ok4 s = true → ok4 (sub5 s) = true := by
  induction s using sub5.induct with
  | case1 => intro h; rw [sub5_nil]; exact h
  | case2 rest hhit ih =>
    intro h
    rw [sub5_nl_hit rest hhit]
    have hA : ∀ a ∈ afterLastNl (rest.takeWhile isSpaceChar), a ≠ '.' :=
      fun a ha => ws_ne_dot (mem_takeWhile_pred (mem_afterLastNl_mem ha))
    have hAD : ok4 (afterLastNl (rest.takeWhile isSpaceChar)
        ++ rest.dropWhile isSpaceChar) = true := by
      rw [ok4_append_of_no_dot hA]
      exact ok4_dropWhile (ok4_tail h)
    rw [ok4_cons, if_neg (by decide : ¬ ('\n' = '.'))]
    rw [ok4_cons, if_neg (by decide : ¬ ('\n' = '.'))]
    simp [ih hAD]
  | case3 rest hmiss ih =>
    intro h
    rw [sub5_nl_miss rest hmiss]
    rw [ok4_cons, if_neg (by decide : ¬ ('\n' = '.'))]
    simp [ih (ok4_tail h)]
  | case4 c rest hnl ih =>
    intro h
    rw [sub5_cons_ne c rest hnl]
    by_cases hdot : c = '.'
    · subst hdot
      rw [ok4_cons, if_pos rfl]
      rw [ok4_cons, if_pos rfl] at h
      rw [Bool.and_eq_true] at h
      have hdo : dotOk (sub5 rest) = true := by
        match rest with
        | [] => rw [sub5_nil]; rfl
        | [d] => rw [sub5_singleton]; rfl
        | d :: e :: r2 =>
          have hde : (isSpaceChar d && isSpaceChar e) = false := by
            have hh := h.1
            rw [dotOk, Bool.not_eq_true'] at hh
            exact hh
          have hshape : ∃ t, sub5 (d :: e :: r2) = d :: e :: t := by
            by_cases hdn : d = '\n'
            · subst hdn
              have hmiss2 : ¬ 2 ≤ ((e :: r2).takeWhile isSpaceChar).count '\n' := by
                have hew : isSpaceChar e = false := by
                  have hd : isSpaceChar '\n' = true := by decide
                  cases he : isSpaceChar e
                  · rfl
                  · rw [hd, he] at hde; exact absurd hde (by simp)
                rw [takeWhile_eq_nil_of_headNotWs _ (by simp [headNotWs, hew])]
                simp
              rw [sub5_nl_miss _ hmiss2]
              obtain ⟨t, ht⟩ := exists_cons_of_head? (l := sub5 (e :: r2)) (c := e)
                (by rw [sub5_head?]; rfl)
              exact ⟨t, by rw [ht]⟩
            · rw [sub5_cons_ne d _ hdn]
              obtain ⟨t, ht⟩ := exists_cons_of_head? (l := sub5 (e :: r2)) (c := e)
                (by rw [sub5_head?]; rfl)
              exact ⟨t, by rw [ht]⟩
          obtain ⟨t, ht⟩ := hshape
          rw [ht, dotOk, hde]
          rfl
      rw [hdo]
      simp [ih h.2]
    · rw [ok4_cons, if_neg hdot]
      simp [ih (ok4_tail h)]

end Pireader

namespace Pireader

/-! ### The apostrophe rules are inert on apostrophe-free text,
and the later rules keep text apostrophe-free -/

theorem sub1_cons_no_quote (c : Char) (r : Str) (h : r.head? ≠ some '\'') :
    sub1 (c :: r) = c :: sub1 r := by
  have hg : ∀ (c0 : Char) (rest3 : List Char), r = '\'' :: c0 :: rest3 → False := by
    intro c0 r3 hr
    subst hr
    exact h rfl
  rw [sub1.eq_3 c r hg, ite_self]

theorem sub2_cons_no_quote (c : Char) (r : Str) (h : r.head? ≠ some '\'') :
    sub2 (c :: r) = c :: sub2 r := by
  have hg : ∀ (c0 : Char) (rest3 : List Char), r = '\'' :: c0 :: rest3 → False := by
    intro c0 r3 hr
    subst hr
    exact h rfl
  rw [sub2.eq_3 c r hg, ite_self]

theorem sub1_id_of_no_apos (s : Str) (h : '\'' ∉ s) : sub1 s = s := by
  induction s with
  | nil => rw [sub1]
  | cons c rest ih =>
    have hq : rest.head? ≠ some '\'' := by
      intro hh
      obtain ⟨t, ht⟩ := exists_cons_of_head? hh
      exact h (by rw [ht]; exact List.mem_cons_of_mem _ (List.mem_cons_self _ _))
    rw [sub1_cons_no_quote c rest hq, ih (fun hm => h (List.mem_cons_of_mem c hm))]

theorem sub2_id_of_no_apos (s : Str) (h : '\'' ∉ s) : sub2 s = s := by
  induction s with
  | nil => rw [sub2]
  | cons c rest ih =>
    have hq : rest.head? ≠ some '\'' := by
      intro hh
      obtain ⟨t, ht⟩ := exists_cons_of_head? hh
      exact h (by rw [ht]; exact List.mem_cons_of_mem _ (List.mem_cons_self _ _))
    rw [sub2_cons_no_quote c rest hq, ih (fun hm => h (List.mem_cons_of_mem c hm))]

theorem sub3_no_apos (s : Str) (h : '\'' ∉ s) : '\'' ∉ sub3 s := by
  induction s using sub3.induct with
  | case1 => rw [sub3_nil]; exact h
  | case2 c rest hws ih =>
    rw [sub3_colon_ws c rest hws]
    intro hm
    rcases List.mem_cons.mp hm with h1 | hm
    · exact absurd h1 (by decide)
    rcases List.mem_cons.mp hm with h1 | hm
    · exact absurd h1 (by decide)
    refine ih ?_ hm
    intro hmm
    exact h (List.mem_cons_of_mem _ (List.mem_cons_of_mem _
      ((List.dropWhile_sublist isSpaceChar).subset hmm)))
  | case3 c rest hws ih =>
    rw [sub3_colon_nws c rest (by simpa using hws)]
    intro hm
    rcases List.mem_cons.mp hm with h1 | hm
    · exact absurd h1 (by decide)
    exact ih (fun hmm => h (List.mem_cons_of_mem _ hmm)) hm
  | case4 c rest hne ih =>
    by_cases hc : c = ':'
    · subst hc
      cases rest with
      | nil => rw [sub3_colon_nil]; exact h
      | cons d r => exact absurd rfl (fun hh => hne d r rfl hh)
    · rw [sub3_cons_ne c rest hc]
      intro hm
      rcases List.mem_cons.mp hm with h1 | hm
      · exact h (h1 ▸ List.mem_cons_self c rest)
      · exact ih (fun hmm => h (List.mem_cons_of_mem _ hmm)) hm

theorem sub4_no_apos (s : Str) (h : '\'' ∉ s) : '\'' ∉ sub4 s := by
  induction s using sub4.induct with
  | case1 => rw [sub4_nil]; exact h
  | case2 c d rest hws ih =>
    rw [sub4_dot_ws c d rest (by simp_all) (by simp_all)]
    intro hm
    rcases List.mem_cons.mp hm with h1 | hm
    · exact absurd h1 (by decide)
    rcases List.mem_cons.mp hm with h1 | hm
    · exact absurd h1 (by decide)
    refine ih ?_ hm
    intro hmm
    exact h (List.mem_cons_of_mem _ (List.mem_cons_of_mem _ (List.mem_cons_of_mem _
      ((List.dropWhile_sublist isSpaceChar).subset hmm))))
  | case3 c d rest hws ih =>
    rw [sub4_dot_nws c d rest (by simpa using hws)]
    intro hm
    rcases List.mem_cons.mp hm with h1 | hm
    · exact absurd h1 (by decide)
    exact ih (fun hmm => h (List.mem_cons_of_mem _ hmm)) hm
  | case4 c rest hne ih =>
    by_cases hc : c = '.'
    · subst hc
      cases rest with
      | nil => rw [sub4_dot_nil]; exact h
      | cons d r =>
        cases r with
        | nil =>
          rw [sub4_dot_one, sub4_singleton]
          exact h
        | cons e r2 => exact absurd rfl (fun hh => hne d e r2 rfl hh)
    · rw [sub4_cons_ne c rest hc]
      intro hm
      rcases List.mem_cons.mp hm with h1 | hm
      · exact h (h1 ▸ List.mem_cons_self c rest)
      · exact ih (fun hmm => h (List.mem_cons_of_mem c hmm)) hm

theorem sub5_no_apos (s : Str) (h : '\'' ∉ s) : '\'' ∉ sub5 s := by
  induction s using sub5.induct with
  | case1 => rw [sub5_nil]; exact h
  | case2 rest hhit ih =>
    rw [sub5_nl_hit rest hhit]
    intro hm
    rcases List.mem_cons.mp hm with h1 | hm
    · exact absurd h1 (by decide)
    rcases List.mem_cons.mp hm with h1 | hm
    · exact absurd h1 (by decide)
    refine ih ?_ hm
    intro hmm
    rcases List.mem_append.mp hmm with h2 | h2
    · exact h (List.mem_cons_of_mem _
        ((List.takeWhile_sublist isSpaceChar).subset (mem_afterLastNl_mem h2)))
    · exact h (List.mem_cons_of_mem _ ((List.dropWhile_sublist isSpaceChar).subset h2))
  | case3 rest hmiss ih =>
    rw [sub5_nl_miss rest hmiss]
    intro hm
    rcases List.mem_cons.mp hm with h1 | hm
    · exact absurd h1 (by decide)
    · exact ih (fun hmm => h (List.mem_cons_of_mem _ hmm)) hm
  | case4 c rest hnl ih =>
    rw [sub5_cons_ne c rest hnl]
    intro hm
    rcases List.mem_cons.mp hm with h1 | hm
    · exact h (h1 ▸ List.mem_cons_self c rest)
    · exact ih (fun hmm => h (List.mem_cons_of_mem c hmm)) hm

end Pireader

namespace Pireader

/-- C5 (amended): the normalizer is idempotent on apostrophe-free input:
for every string `x` not containing an apostrophe,
`clean_text (clean_text x) = clean_text x`.  (On texts with overlapping
apostrophe-spacing sites a single pass can leave sites unrewritten,
because `re.sub` does not rescan replaced text; see the counterexample.) -/
theorem clean_text_idempotent_of_no_apos (s : Str) (h : '\'' ∉ s) :
    clean_text (clean_text s) = clean_text s := by
  simp only [clean_text]
  rw [sub1_id_of_no_apos s h, sub2_id_of_no_apos s h]
  have hy_noq : '\'' ∉ sub5 (sub4 (sub3 s)) :=
    sub5_no_apos _ (sub4_no_apos _ (sub3_no_apos _ h))
  have hok3 : ok3 (sub5 (sub4 (sub3 s))) = true :=
    ok3_sub5 _ (ok3_sub4 _ (ok3_sub3 s))
  have hok4 : ok4 (sub5 (sub4 (sub3 s))) = true :=
    ok4_sub5 _ (ok4_sub4 (sub3 s))
  have hok5 : ok5 (sub5 (sub4 (sub3 s))) = true := ok5_sub5 _
  rw [sub1_id_of_no_apos _ hy_noq, sub2_id_of_no_apos _ hy_noq,
    sub3_id_of_ok3 _ hok3, sub4_id_of_ok4 _ hok4, sub5_id_of_ok5 _ hok5]

/-- C5 witness: the amended idempotence theorem applied at `"x:  y"`. -/
theorem clean_text_idempotent_witness :
    '\'' ∉ (['x', ':', ' ', ' ', 'y'] : Str) ∧
      clean_text (clean_text ['x', ':', ' ', ' ', 'y'])
        = clean_text ['x', ':', ' ', ' ', 'y'] :=
  ⟨by decide, clean_text_idempotent_of_no_apos _ (by decide)⟩

/-- C5 counterexample: `clean_text` is not idempotent as claimed: on
`"a' b' c"` one pass yields `"a'b' c"` (the match on `a' b` consumes `b`,
so the overlapping site `b' c` is not rescanned), and a second pass
yields `"a'b'c"`. -/
theorem clean_text_not_idempotent :
    clean_text (clean_text ['a', '\'', ' ', 'b', '\'', ' ', 'c'])
      ≠ clean_text ['a', '\'', ' ', 'b', '\'', ' ', 'c'] := by
  have h1 : clean_text ['a', '\'', ' ', 'b', '\'', ' ', 'c']
      = ['a', '\'', 'b', '\'', ' ', 'c'] := by
    simp [clean_text, sub1, sub2, sub3, sub4, sub5,
      show isWordChar 'a' = true from rfl, show isWordChar 'b' = true from rfl,
      show isWordChar 'c' = true from rfl, show isWordChar '\'' = false from rfl,
      show isSpaceChar ' ' = true from rfl, show isSpaceChar 'b' = false from rfl,
      show isSpaceChar 'c' = false from rfl, show isSpaceChar '\'' = false from rfl,
      show isSpaceChar 'a' = false from rfl,
      show isTSMD 'b' = false from rfl, show isTSMD 'c' = false from rfl,
      List.dropWhile, List.takeWhile]
  have h2 : clean_text ['a', '\'', 'b', '\'', ' ', 'c']
      = ['a', '\'', 'b', '\'', 'c'] := by
    simp [clean_text, sub1, sub2, sub3, sub4, sub5,
      show isWordChar 'a' = true from rfl, show isWordChar 'b' = true from rfl,
      show isWordChar 'c' = true from rfl, show isWordChar '\'' = false from rfl,
      show isSpaceChar ' ' = true from rfl, show isSpaceChar 'b' = false from rfl,
      show isSpaceChar 'c' = false from rfl, show isSpaceChar '\'' = false from rfl,
      show isSpaceChar 'a' = false from rfl,
      show isTSMD 'b' = false from rfl, show isTSMD 'c' = false from rfl,
      List.dropWhile, List.takeWhile]
  rw [h1, h2]
  decide

end Pireader

namespace Pireader

/-! ## Pagination (book.py `paginate_initial`, `paginate_full`)

A font is modelled by its measuring function and the bottom of the
bounding box of `"Hg"` (`font.getbbox("Hg")[3]`).  The Python code
computes `max_lines_per_page = int((H - 2*margin - 1.5*line_height) /
line_height)` in floating point; `1.5 * line_height` and the
subtraction are exact in binary floating point, and the model computes
the same truncated quotient with exact integer arithmetic (negative
usable heights clamp to zero lines, which yields the same page-splitting
behaviour as Python's negative `max_lines_per_page`: every line starts a
new page). -/

structure Font where
  getlength : Str → Nat
  bboxBottom : Nat

def line_height (f : Font) : Nat := f.bboxBottom + 1

def max_lines_per_page (f : Font) (H margin : Nat) : Nat :=
  (2 * (H - 2 * margin) - 3 * line_height f) / (2 * line_height f)

/-- The greedy word-packing loop of both paginators: pack words into
`cur` while the measured test line fits in `limit`; on overflow emit
`cur` (when non-empty) and restart from the overflowing word; emit the
final `cur` when non-empty. -/
def wrapWords (f : Font) (limit : Nat) : Str → List Str → List Str
  | cur, [] => if cur = [] then [] else [cur]
  | cur, w :: ws =>
    let test := if cur = [] then w else strip (cur ++ ' ' :: w)
    if f.getlength test ≤ limit then wrapWords f limit test ws
    else if cur = [] then wrapWords f limit w ws
    else cur :: wrapWords f limit w ws

/-- The paragraph loop of `paginate_full`: strip each paragraph; a blank
paragraph appends one empty separator line unless the accumulated lines
are empty or already end in one; a non-blank paragraph is word-wrapped. -/
def buildLines (f : Font) (limit : Nat) : List Str → List Str → List Str
  | acc, [] => acc
  | acc, para :: ps =>
    if strip para = [] then
      if acc ≠ [] ∧ acc.getLast? ≠ some [] then
        buildLines f limit (acc ++ [[]]) ps
      else buildLines f limit acc ps
    else buildLines f limit (acc ++ wrapWords f limit [] (splitWs (strip para))) ps

/-- The page-splitting loop shared by both paginators: close the current
page when it holds `maxL` lines; a blank line that would open a new page
is dropped. -/
def splitIntoPages (maxL : Nat) : List Str → List Str → List (List Str)
  | cur, [] => if cur = [] then [] else [cur]
  | cur, line :: rest =>
    if maxL ≤ cur.length then
      if cur = [] then
        if line = [] then splitIntoPages maxL [] rest
        else splitIntoPages maxL [line] rest
      else
        if line = [] then cur :: splitIntoPages maxL [] rest
        else cur :: splitIntoPages maxL [line] rest
    else splitIntoPages maxL (cur ++ [line]) rest

/-- The cleanup pass of `paginate_full`: pop trailing blank lines from
each page and drop pages that become empty. -/
def rstripBlanks (p : List Str) : List Str :=
  (p.reverse.dropWhile (fun l => l.isEmpty)).reverse

def cleanupPages (ps : List (List Str)) : List (List Str) :=
  (ps.map rstripBlanks).filter (fun p => !p.isEmpty)

/-- `paginate_full` (book.py lines 301-361). -/
def paginate_full (text : Str) (f : Font)
    (W : Nat := 300) (H : Nat := 400) (margin : Nat := 4) : List (List Str) :=
  cleanupPages (splitIntoPages (max_lines_per_page f H margin) []
    (buildLines f (W - 2 * margin) [] (splitOnNl text)))

/-- The bounded word-packing loop of `paginate_initial`: as `wrapWords`,
but stop once `maxI` lines have been collected; the final `cur` is kept
only while under the budget.  Returns the lines and the updated count. -/
def wrapWordsB (f : Font) (limit maxI : Nat) : Nat → Str → List Str → List Str × Nat
  | coll, cur, [] =>
    if cur ≠ [] ∧ coll < maxI then ([cur], coll + 1) else ([], coll)
  | coll, cur, w :: ws =>
    if maxI ≤ coll then ([], coll)
    else
      let test := if cur = [] then w else strip (cur ++ ' ' :: w)
      if f.getlength test ≤ limit then wrapWordsB f limit maxI coll test ws
      else if cur = [] then wrapWordsB f limit maxI coll w ws
      else
        ((wrapWordsB f limit maxI (coll + 1) w ws).1.cons cur,
          (wrapWordsB f limit maxI (coll + 1) w ws).2)

/-- The bounded paragraph loop of `paginate_initial`. -/
def buildLinesB (f : Font) (limit maxI : Nat) : List Str → Nat → List Str → List Str
  | acc, _, [] => acc
  | acc, coll, para :: ps =>
    if maxI ≤ coll then acc
    else if strip para = [] then
      if acc ≠ [] ∧ acc.getLast? ≠ some [] then
        buildLinesB f limit maxI (acc ++ [[]]) (coll + 1) ps
      else buildLinesB f limit maxI acc coll ps
    else
      buildLinesB f limit maxI
        (acc ++ (wrapWordsB f limit maxI coll [] (splitWs (strip para))).1)
        (wrapWordsB f limit maxI coll [] (splitWs (strip para))).2 ps

/-- `paginate_initial` (book.py lines 234-299): bounded to 50 pages'
worth of lines, no cleanup pass, and a `"Loading..."` placeholder page
when no page was produced. -/
def paginate_initial (text : Str) (f : Font)
    (W : Nat := 300) (H : Nat := 400) (margin : Nat := 4) : List (List Str) :=
  let maxL := max_lines_per_page f H margin
  let ps := splitIntoPages maxL []
    (buildLinesB f (W - 2 * margin) (maxL * 50) [] 0 (splitOnNl text))
  if ps = [] then [[("Loading...".data)]] else ps

end Pireader

namespace Pireader

/-- A concrete font for concrete evaluations: every character one unit
wide, with `bbox("Hg")[3] = 19`. -/
def unitFont : Font := { getlength := fun l => l.length, bboxBottom := 19 }

/-- C2 (amended): the bounded quick-pass layout always returns a
non-empty page sequence: when no lines are produced it returns the
single placeholder page `["Loading..."]`.  (The unbounded full layout
has no such fallback; see the counterexample.) -/
theorem paginate_initial_ne_nil (text : Str) (f : Font) (W H margin : Nat) :
    paginate_initial text f W H margin ≠ [] := by
  simp only [paginate_initial]
  split
  · simp
  · assumption

/-- C2 counterexample: the full layout returns the empty page sequence
on empty text — there is no placeholder page in `paginate_full`. -/
theorem paginate_full_empty_eq_nil : paginate_full [] unitFont = [] := by decide

end Pireader

namespace Pireader

/-! ### Token structure of `split()`, `strip()` and `split("\n")` -/

theorem splitWsAux_append_ws (sep : Char) (hsep : isSpaceChar sep = true)
    (l2 : Str) (l1 : Str) : ∀ acc, splitWsAux acc (l1 ++ sep :: l2)
      = splitWsAux acc l1 ++ splitWs l2 := by
  induction l1 with
  | nil =>
    intro acc
    rw [List.nil_append, splitWsAux.eq_2, hsep]
    simp only [if_true]
    by_cases h : acc = []
    · subst h
      simp [splitWsAux, splitWs]
    · rw [if_neg h, splitWsAux.eq_1, if_neg h]
      simp [splitWs]
  | cons c l1 ih =>
    intro acc
    simp only [List.cons_append, splitWsAux, List.append_eq]
    by_cases hc : isSpaceChar c = true
    · rw [hc]
      simp only [if_true]
      split
      · rw [ih]
      · rw [ih, List.cons_append]
    · rw [Bool.not_eq_true] at hc
      rw [hc]
      simp only [Bool.false_eq_true, if_false]
      rw [ih]

theorem splitWs_append_ws (sep : Char) (hsep : isSpaceChar sep = true)
    (l1 l2 : Str) : splitWs (l1 ++ sep :: l2) = splitWs l1 ++ splitWs l2 :=
  splitWsAux_append_ws sep hsep l2 l1 []

theorem splitWsAux_all_ws (l : Str) : ∀ acc,
    (∀ a ∈ l, isSpaceChar a = true) →
      splitWsAux acc l = if acc = [] then [] else [acc.reverse] := by
  induction l with
  | nil => intro acc h; rw [splitWsAux]
  | cons c l ih =>
    intro acc h
    rw [splitWsAux.eq_2, h c (List.mem_cons_self c l)]
    simp only [if_true]
    have hrec := ih [] (fun a ha => h a (List.mem_cons_of_mem c ha))
    split <;> simp [hrec]

theorem splitWsAux_append_all_ws (t : Str)
    (h : ∀ a ∈ t, isSpaceChar a = true) (m : Str) :
    ∀ acc, splitWsAux acc (m ++ t) = splitWsAux acc m := by
  induction m with
  | nil =>
    intro acc
    rw [List.nil_append, splitWsAux_all_ws t acc h, splitWsAux]
  | cons c m ih =>
    intro acc
    simp only [List.cons_append, splitWsAux, List.append_eq]
    split
    · split
      · rw [ih]
      · rw [ih]
    · rw [ih]

theorem splitWs_cons_ws {c : Char} (l : Str) (h : isSpaceChar c = true) :
    splitWs (c :: l) = splitWs l := by
  rw [splitWs, splitWsAux.eq_2, h]
  simp [splitWs]

theorem splitWs_dropWhile_ws (l : Str) :
    splitWs (l.dropWhile isSpaceChar) = splitWs l := by
  induction l with
  | nil => rfl
  | cons c l ih =>
    rw [List.dropWhile]
    split
    · rename_i h
      rw [ih, splitWs_cons_ws l h]
    · rfl

theorem splitWs_strip (s : Str) : splitWs (strip s) = splitWs s := by
  rw [strip]
  have h1 : splitWs (s.dropWhile isSpaceChar) = splitWs s := splitWs_dropWhile_ws s
  set m := s.dropWhile isSpaceChar with hm
  have hsplit : m.reverse = m.reverse.takeWhile isSpaceChar
      ++ m.reverse.dropWhile isSpaceChar :=
    (List.takeWhile_append_dropWhile (p := isSpaceChar) (l := m.reverse)).symm
  have hm2 : m = (m.reverse.dropWhile isSpaceChar).reverse
      ++ (m.reverse.takeWhile isSpaceChar).reverse := by
    have h3 := congrArg List.reverse hsplit
    rw [List.reverse_append, List.reverse_reverse] at h3
    exact h3
  rw [← h1]
  conv_rhs => rw [hm2]
  rw [splitWs, splitWs,
    splitWsAux_append_all_ws _
      (fun a ha => mem_takeWhile_pred (List.mem_reverse.mp ha)) _ []]

theorem splitOnNl_ne_nil (t : Str) : splitOnNl t ≠ [] := by
  cases t with
  | nil => simp [splitOnNl]
  | cons c rest =>
    rw [splitOnNl]
    split
    · simp
    · split
      · simp
      · simp

theorem splitWsAux_splitOnNl (text : Str) : ∀ acc,
    splitWsAux acc text
      = splitWsAux acc (splitOnNl text).head!
        ++ (((splitOnNl text).tail).map splitWs).flatten := by
  induction text with
  | nil =>
    intro acc
    rw [splitOnNl]
    simp
  | cons c rest ih =>
    intro acc
    obtain ⟨p, ps, hps⟩ : ∃ p ps, splitOnNl rest = p :: ps := by
      cases hh : splitOnNl rest with
      | nil => exact absurd hh (splitOnNl_ne_nil rest)
      | cons p ps => exact ⟨p, ps, rfl⟩
    have hrest := ih []
    rw [hps] at hrest
    simp only [List.head!, List.tail] at hrest
    by_cases hc : c = '\n'
    · subst hc
      rw [splitOnNl.eq_2]
      simp only [if_pos rfl, List.head!, List.tail]
      have hws : isSpaceChar '\n' = true := by decide
      rw [splitWsAux.eq_2, hws]
      simp only [if_true]
      have hjoin : ((splitOnNl rest).map splitWs).flatten = splitWsAux [] rest := by
        rw [hps]
        simp only [List.map_cons, List.flatten_cons]
        rw [hrest]
        rfl
      rw [hjoin]
      split
      · rename_i ha
        rw [splitWsAux.eq_1, if_pos ha, List.nil_append]
      · rename_i ha
        rw [splitWsAux.eq_1, if_neg ha]
        rfl
    · rw [splitOnNl.eq_2]
      simp only [if_neg hc]
      rw [hps]
      simp only [List.head!, List.tail]
      rw [splitWsAux.eq_2]
      by_cases hws : isSpaceChar c = true
      · rw [hws]
        simp only [if_true]
        have ihp := ih []
        rw [hps] at ihp
        simp only [List.head!, List.tail] at ihp
        split
        · rename_i ha
          rw [ihp, splitWsAux.eq_2, hws]
          simp [ha]
        · rename_i ha
          rw [ihp, splitWsAux.eq_2, hws]
          simp [ha]
      · rw [Bool.not_eq_true] at hws
        rw [hws]
        simp only [Bool.false_eq_true, if_false]
        have ihc := ih (c :: acc)
        rw [hps] at ihc
        simp only [List.head!, List.tail] at ihc
        rw [ihc, splitWsAux.eq_2, hws]
        simp

theorem splitWs_splitOnNl (text : Str) :
    splitWs text = ((splitOnNl text).map splitWs).flatten := by
  obtain ⟨p, ps, hps⟩ : ∃ p ps, splitOnNl text = p :: ps := by
    cases hh : splitOnNl text with
    | nil => exact absurd hh (splitOnNl_ne_nil text)
    | cons p ps => exact ⟨p, ps, rfl⟩
  have h := splitWsAux_splitOnNl text []
  rw [hps] at h ⊢
  simp only [List.head!, List.tail] at h
  simp only [List.map_cons, List.flatten_cons]
  exact h

end Pireader

namespace Pireader

theorem splitWsAux_mem (l : Str) : ∀ acc w,
    (∀ c ∈ acc, isSpaceChar c = false) → w ∈ splitWsAux acc l →
      w ≠ [] ∧ ∀ c ∈ w, isSpaceChar c = false := by
  induction l with
  | nil =>
    intro acc w hacc hw
    rw [splitWsAux] at hw
    split at hw
    · simp at hw
    · rename_i ha
      rw [List.mem_singleton] at hw
      subst hw
      refine ⟨by simpa using ha, ?_⟩
      intro c hc
      exact hacc c (List.mem_reverse.mp hc)
  | cons d l ih =>
    intro acc w hacc hw
    rw [splitWsAux.eq_2] at hw
    split at hw
    · split at hw
      · exact ih [] w (by simp) hw
      · rename_i ha
        rcases List.mem_cons.mp hw with h1 | h1
        · subst h1
          refine ⟨by simpa using ha, ?_⟩
          intro c hc
          exact hacc c (List.mem_reverse.mp hc)
        · exact ih [] w (by simp) h1
    · rename_i hd
      refine ih (d :: acc) w ?_ hw
      intro c hc
      rcases List.mem_cons.mp hc with h1 | h1
      · subst h1
        simpa using hd
      · exact hacc c h1

theorem splitWs_mem {l : Str} {w : Str} (hw : w ∈ splitWs l) :
    w ≠ [] ∧ ∀ c ∈ w, isSpaceChar c = false :=
  splitWsAux_mem l [] w (by simp) hw

theorem splitWsAux_token_self (w : Str) : ∀ acc,
    (∀ c ∈ w, isSpaceChar c = false) →
      splitWsAux acc w
        = if acc.reverse ++ w = [] then [] else [acc.reverse ++ w] := by
  induction w with
  | nil =>
    intro acc h
    rw [splitWsAux]
    simp
  | cons c w ih =>
    intro acc h
    rw [splitWsAux.eq_2, h c (List.mem_cons_self c w)]
    simp only [Bool.false_eq_true, if_false]
    rw [ih (c :: acc) (fun a ha => h a (List.mem_cons_of_mem c ha))]
    simp

theorem splitWs_token_self {w : Str} (h1 : w ≠ [])
    (h2 : ∀ c ∈ w, isSpaceChar c = false) : splitWs w = [w] := by
  rw [splitWs, splitWsAux_token_self w [] h2]
  simp [h1]

end Pireader

namespace Pireader

/-! ### Line-width bound of the greedy wrap -/

theorem wrapWords_width (f : Font) (limit : Nat) : ∀ (words : List Str) (cur : Str),
    (cur = [] ∨ f.getlength cur ≤ limit) →
    (∀ w ∈ words, f.getlength w ≤ limit) →
    ∀ l ∈ wrapWords f limit cur words, f.getlength l ≤ limit := by
  intro words
  induction words with
  | nil =>
    intro cur hcur hw l hl
    rw [wrapWords] at hl
    split at hl
    · simp at hl
    · rename_i hne
      rw [List.mem_singleton] at hl
      subst hl
      rcases hcur with h | h
      · exact absurd h hne
      · exact h
  | cons w ws ih =>
    intro cur hcur hw l hl
    rw [wrapWords.eq_2] at hl
    split at hl
    · -- empty current line: both branches restart from `w`
      rw [ite_self] at hl
      exact ih w (Or.inr (hw w (List.mem_cons_self w ws)))
        (fun x hx => hw x (List.mem_cons_of_mem w hx)) l hl
    · rename_i hcne
      split at hl
      · -- the test line was accepted, so it is within the limit
        rename_i hacc
        exact ih _ (Or.inr hacc)
          (fun x hx => hw x (List.mem_cons_of_mem w hx)) l hl
      · rcases List.mem_cons.mp hl with h1 | h1
        · subst h1
          rcases hcur with h | h
          · exact absurd h hcne
          · exact h
        · exact ih w (Or.inr (hw w (List.mem_cons_self w ws)))
            (fun x hx => hw x (List.mem_cons_of_mem w hx)) l h1

theorem buildLines_width (f : Font) (limit : Nat) : ∀ (paras : List Str) (acc : List Str),
    (∀ l ∈ acc, l ≠ [] → f.getlength l ≤ limit) →
    (∀ p ∈ paras, ∀ w ∈ splitWs (strip p), f.getlength w ≤ limit) →
    ∀ l ∈ buildLines f limit acc paras, l ≠ [] → f.getlength l ≤ limit := by
  intro paras
  induction paras with
  | nil =>
    intro acc hacc hw l hl
    rw [buildLines] at hl
    exact hacc l hl
  | cons p ps ih =>
    intro acc hacc hw l hl
    rw [buildLines.eq_2] at hl
    split at hl
    · split at hl
      · refine ih _ ?_ (fun q hq => hw q (List.mem_cons_of_mem p hq)) l hl
        intro x hx hxne
        rcases List.mem_append.mp hx with h1 | h1
        · exact hacc x h1 hxne
        · rw [List.mem_singleton] at h1
          exact absurd h1 hxne
      · exact ih _ hacc (fun q hq => hw q (List.mem_cons_of_mem p hq)) l hl
    · refine ih _ ?_ (fun q hq => hw q (List.mem_cons_of_mem p hq)) l hl
      intro x hx hxne
      rcases List.mem_append.mp hx with h1 | h1
      · exact hacc x h1 hxne
      · exact wrapWords_width f limit _ [] (Or.inl rfl)
          (hw p (List.mem_cons_self p ps)) x h1

theorem splitIntoPages_mem (maxL : Nat) : ∀ (lines cur : List Str) (pg : List Str),
    pg ∈ splitIntoPages maxL cur lines → ∀ l ∈ pg, l ∈ cur ∨ l ∈ lines := by
  intro lines
  induction lines with
  | nil =>
    intro cur pg hpg l hl
    rw [splitIntoPages] at hpg
    split at hpg
    · simp at hpg
    · rw [List.mem_singleton] at hpg
      subst hpg
      exact Or.inl hl
  | cons line rest ih =>
    intro cur pg hpg l hl
    rw [splitIntoPages.eq_2] at hpg
    split at hpg
    · split at hpg
      · split at hpg
        · rcases ih _ _ hpg l hl with h | h
          · simp at h
          · exact Or.inr (List.mem_cons_of_mem line h)
        · rcases ih _ _ hpg l hl with h | h
          · rw [List.mem_singleton] at h
            exact Or.inr (h ▸ List.mem_cons_self line rest)
          · exact Or.inr (List.mem_cons_of_mem line h)
      · split at hpg
        · rcases List.mem_cons.mp hpg with h1 | h1
          · subst h1
            exact Or.inl hl
          · rcases ih _ _ h1 l hl with h | h
            · simp at h
            · exact Or.inr (List.mem_cons_of_mem line h)
        · rcases List.mem_cons.mp hpg with h1 | h1
          · subst h1
            exact Or.inl hl
          · rcases ih _ _ h1 l hl with h | h
            · rw [List.mem_singleton] at h
              exact Or.inr (h ▸ List.mem_cons_self line rest)
            · exact Or.inr (List.mem_cons_of_mem line h)
    · rcases ih _ _ hpg l hl with h | h
      · rcases List.mem_append.mp h with h2 | h2
        · exact Or.inl h2
        · rw [List.mem_singleton] at h2
          exact Or.inr (h2 ▸ List.mem_cons_self line rest)
      · exact Or.inr (List.mem_cons_of_mem line h)

theorem cleanupPages_mem {ps : List (List Str)} {pg : List Str}
    (hpg : pg ∈ cleanupPages ps) : ∃ q ∈ ps, ∀ l ∈ pg, l ∈ q := by
  rw [cleanupPages] at hpg
  have h1 := List.mem_of_mem_filter hpg
  obtain ⟨q, hq, hq2⟩ := List.mem_map.mp h1
  refine ⟨q, hq, ?_⟩
  intro l hl
  rw [← hq2, rstripBlanks] at hl
  rw [List.mem_reverse] at hl
  have := (List.dropWhile_sublist (fun l : Str => l.isEmpty)).subset hl
  exact List.mem_reverse.mp this

/-- C7: greedy packing never emits an over-wide line: if every word of
the text measures at most `W - 2*margin`, then every non-blank line on
every page of `paginate_full` measures at most `W - 2*margin`. -/
theorem paginate_full_line_width (text : Str) (f : Font) (W H margin : Nat)
    (hw : ∀ w ∈ splitWs text, f.getlength w ≤ W - 2 * margin) :
    ∀ pg ∈ paginate_full text f W H margin, ∀ l ∈ pg, l ≠ [] →
      f.getlength l ≤ W - 2 * margin := by
  intro pg hpg l hl hlne
  rw [paginate_full] at hpg
  obtain ⟨q, hq, hsub⟩ := cleanupPages_mem hpg
  have hl2 := hsub l hl
  have hl3 := splitIntoPages_mem _ _ _ _ hq l hl2
  rcases hl3 with h | h
  · simp at h
  · refine buildLines_width f (W - 2 * margin) (splitOnNl text) [] (by simp) ?_ l h hlne
    intro p hp w hwp
    refine hw w ?_
    rw [splitWs_splitOnNl text]
    rw [splitWs_strip] at hwp
    exact List.mem_flatten.mpr ⟨splitWs p, List.mem_map.mpr ⟨p, hp, rfl⟩, hwp⟩

/-- C7 witness: the width-bound theorem applied to a concrete text and
the unit-width font. -/
theorem paginate_full_line_width_witness :
    (∀ w ∈ splitWs ("hello world again".data), unitFont.getlength w ≤ 300 - 2 * 4) ∧
      ∀ pg ∈ paginate_full ("hello world again".data) unitFont 300 400 4,
        ∀ l ∈ pg, l ≠ [] → unitFont.getlength l ≤ 300 - 2 * 4 :=
  ⟨by decide, paginate_full_line_width ("hello world again".data) unitFont 300 400 4
    (by decide)⟩

end Pireader

namespace Pireader

/-! ### Word coverage of the full layout -/

/-- The word tokens of a sequence of lines. -/
def lineTokens (ls : List Str) : List Str := (ls.map splitWs).flatten

/-- Concatenation of lines with newline separators, the reading of
"concatenating all lines" that keeps adjacent words apart. -/
def joinLinesNl : List Str → Str
  | [] => []
  | [l] => l
  | l :: ls => l ++ '\n' :: joinLinesNl ls

theorem splitWs_joinLinesNl (ls : List Str) :
    splitWs (joinLinesNl ls) = lineTokens ls := by
  induction ls with
  | nil => rfl
  | cons l ls ih =>
    cases ls with
    | nil => simp [joinLinesNl, lineTokens]
    | cons l2 ls2 =>
      have hj : joinLinesNl (l :: l2 :: ls2) = l ++ '\n' :: joinLinesNl (l2 :: ls2) := rfl
      rw [hj, splitWs_append_ws '\n' (by decide), ih]
      simp [lineTokens]

theorem lineTokens_append (a b : List Str) :
    lineTokens (a ++ b) = lineTokens a ++ lineTokens b := by
  simp [lineTokens]

theorem lineTokens_filter_blank (ls : List Str) :
    lineTokens (ls.filter (fun l => !l.isEmpty)) = lineTokens ls := by
  induction ls with
  | nil => rfl
  | cons l ls ih =>
    rw [List.filter_cons]
    by_cases hl : l = []
    · subst hl
      simp only [List.isEmpty_nil, Bool.not_true, Bool.false_eq_true, if_false]
      rw [ih]
      simp [lineTokens, splitWs, splitWsAux]
    · have : (!l.isEmpty) = true := by simp [List.isEmpty_iff, hl]
      rw [this]
      simp only [if_true]
      simpa [lineTokens] using ih

theorem wrapWords_tokens (f : Font) (limit : Nat) : ∀ (words : List Str) (cur : Str),
    (∀ w ∈ words, w ≠ [] ∧ ∀ c ∈ w, isSpaceChar c = false) →
    lineTokens (wrapWords f limit cur words) = splitWs cur ++ words := by
  intro words
  induction words with
  | nil =>
    intro cur hws
    rw [wrapWords]
    split
    · rename_i h
      subst h
      simp [lineTokens, splitWs, splitWsAux]
    · simp [lineTokens]
  | cons w ws ih =>
    intro cur hws
    have hw := hws w (List.mem_cons_self w ws)
    have hsw : splitWs w = [w] := splitWs_token_self hw.1 hw.2
    have hws2 : ∀ x ∈ ws, x ≠ [] ∧ ∀ c ∈ x, isSpaceChar c = false :=
      fun x hx => hws x (List.mem_cons_of_mem w hx)
    rw [wrapWords.eq_2]
    split
    · rename_i hc
      subst hc
      rw [ite_self, ih w hws2, hsw]
      simp [splitWs, splitWsAux]
    · rename_i hc
      split
      · rw [ih _ hws2, splitWs_strip,
          splitWs_append_ws ' ' (by decide), hsw]
        simp
      · rw [lineTokens, List.map_cons, List.flatten_cons, ← lineTokens,
          ih w hws2, hsw]
        simp

theorem buildLines_tokens (f : Font) (limit : Nat) : ∀ (paras : List Str) (acc : List Str),
    lineTokens (buildLines f limit acc paras)
      = lineTokens acc ++ ((paras.map (fun p => splitWs (strip p))).flatten) := by
  intro paras
  induction paras with
  | nil =>
    intro acc
    rw [buildLines]
    simp
  | cons p ps ih =>
    intro acc
    rw [buildLines.eq_2]
    split
    · rename_i hp
      split
      · rw [ih, lineTokens_append]
        simp only [List.map_cons, List.flatten_cons, hp]
        simp [lineTokens, splitWs, splitWsAux]
      · rw [ih]
        simp only [List.map_cons, List.flatten_cons, hp]
        simp [splitWs, splitWsAux]
    · rename_i hp
      rw [ih, lineTokens_append,
        wrapWords_tokens f limit (splitWs (strip p)) [] (fun w hw => splitWs_mem hw)]
      simp [splitWs, splitWsAux]

theorem splitIntoPages_tokens (maxL : Nat) : ∀ (lines cur : List Str),
    lineTokens (splitIntoPages maxL cur lines).flatten
      = lineTokens cur ++ lineTokens lines := by
  intro lines
  induction lines with
  | nil =>
    intro cur
    rw [splitIntoPages]
    split
    · rename_i h
      subst h
      simp [lineTokens]
    · simp [lineTokens]
  | cons line rest ih =>
    intro cur
    rw [splitIntoPages.eq_2]
    have hblank : lineTokens [([] : Str)] = [] := by
      simp [lineTokens, splitWs, splitWsAux]
    split
    · rename_i hmax
      split
      · rename_i hcur
        subst hcur
        split
        · rename_i hline
          subst hline
          rw [ih []]
          simp [lineTokens, splitWs, splitWsAux]
        · rw [ih [line]]
          simp [lineTokens]
      · rename_i hcur
        split
        · rename_i hline
          subst hline
          rw [List.flatten_cons, lineTokens_append, ih []]
          simp [lineTokens, splitWs, splitWsAux]
        · rw [List.flatten_cons, lineTokens_append, ih [line]]
          simp [lineTokens]
    · rw [ih (cur ++ [line]), lineTokens_append]
      simp [lineTokens]

theorem rstripBlanks_tokens (p : List Str) :
    lineTokens (rstripBlanks p) = lineTokens p := by
  rw [rstripBlanks]
  have hsplit : p.reverse = p.reverse.takeWhile (fun l : Str => l.isEmpty)
      ++ p.reverse.dropWhile (fun l : Str => l.isEmpty) :=
    (List.takeWhile_append_dropWhile (p := fun l : Str => l.isEmpty)
      (l := p.reverse)).symm
  have hp : p = (p.reverse.dropWhile (fun l : Str => l.isEmpty)).reverse
      ++ (p.reverse.takeWhile (fun l : Str => l.isEmpty)).reverse := by
    have h3 := congrArg List.reverse hsplit
    rw [List.reverse_append, List.reverse_reverse] at h3
    exact h3
  conv_rhs => rw [hp]
  rw [lineTokens_append]
  have hblanks : lineTokens (p.reverse.takeWhile (fun l : Str => l.isEmpty)).reverse = [] := by
    rw [lineTokens, List.flatten_eq_nil_iff]
    intro l hl
    obtain ⟨x, hx, hx2⟩ := List.mem_map.mp hl
    have hxe : x.isEmpty = true := by
      have := List.mem_reverse.mp hx
      exact List.mem_takeWhile_imp this
    rw [List.isEmpty_iff] at hxe
    subst hxe
    rw [← hx2]
    rfl
  rw [hblanks]
  simp

theorem cleanupPages_tokens (ps : List (List Str)) :
    lineTokens (cleanupPages ps).flatten = lineTokens ps.flatten := by
  rw [cleanupPages]
  induction ps with
  | nil => rfl
  | cons p ps ih =>
    rw [List.map_cons, List.filter_cons]
    by_cases hp : (rstripBlanks p).isEmpty = true
    · simp only [hp, Bool.not_true, Bool.false_eq_true, if_false]
      rw [ih]
      rw [List.flatten_cons, lineTokens_append]
      have : lineTokens p = [] := by
        rw [← rstripBlanks_tokens p]
        rw [List.isEmpty_iff] at hp
        rw [hp]
        rfl
      rw [this]
      simp
    · have : (!(rstripBlanks p).isEmpty) = true := by simp [hp]
      rw [this]
      simp only [if_true]
      rw [List.flatten_cons, List.flatten_cons, lineTokens_append, lineTokens_append,
        ih, rstripBlanks_tokens]

/-- C6: word coverage of the full layout: joining all non-blank lines
across all pages of `paginate_full` (with line separators) and splitting
on whitespace yields exactly the word tokens of the input, in order. -/
theorem paginate_full_coverage (text : Str) (f : Font) (W H margin : Nat) :
    splitWs (joinLinesNl
        (((paginate_full text f W H margin).flatten).filter (fun l => !l.isEmpty)))
      = splitWs text := by
  rw [splitWs_joinLinesNl, lineTokens_filter_blank, paginate_full,
    cleanupPages_tokens, splitIntoPages_tokens, buildLines_tokens]
  rw [splitWs_splitOnNl text]
  have h1 : lineTokens ([] : List Str) = [] := rfl
  rw [h1]
  simp only [List.nil_append]
  congr 1
  apply List.map_congr_left
  intro p hp
  rw [splitWs_strip]

end Pireader

namespace Pireader

/-! ## The quick pass of `extract_text_fast` (book.py lines 125-145)

A content item is `some text` when its decode succeeds and `none` when
the per-item `except` path skips it.  `current_words` is
`len("\n".join(parts).split())`. -/

def current_words (parts : List Str) : Nat := (splitWs (joinLinesNl parts)).length

/-- The quick-pass accumulation loop: append each successfully decoded
item's stripped text, stop once the cumulative word count reaches
10000 or 30 items have been processed. -/
def quickPassParts : List (Option Str) → List Str → Nat → List Str
  | [], parts, _ => parts
  | none :: items, parts, n => quickPassParts items parts n
  | some t :: items, parts, n =>
    if 10000 ≤ current_words (parts ++ [strip t]) ∨ 30 ≤ n + 1 then
      parts ++ [strip t]
    else quickPassParts items (parts ++ [strip t]) (n + 1)

def extract_text_fast_parts (items : List (Option Str)) : List Str :=
  quickPassParts items [] 0

theorem quickPassParts_spec : ∀ (items : List (Option Str)) (parts : List Str) (n : Nat),
    parts.length = n → n < 30 →
    (∀ k, k + 1 ≤ parts.length →
      current_words (parts.take (k + 1)) < 10000 ∧ k + 1 < 30) →
    (quickPassParts items parts n).length ≤ 30
    ∧ (∃ m, quickPassParts items parts n
        = parts ++ ((items.take m).filterMap id).map strip)
    ∧ (∀ k, k + 1 < (quickPassParts items parts n).length →
        current_words ((quickPassParts items parts n).take (k + 1)) < 10000
          ∧ k + 1 < 30)
    ∧ (quickPassParts items parts n = parts ++ (items.filterMap id).map strip
        ∨ 10000 ≤ current_words (quickPassParts items parts n)
        ∨ (quickPassParts items parts n).length = 30) := by
  intro items
  induction items with
  | nil =>
    intro parts n hn hlt hpre
    rw [quickPassParts]
    refine ⟨by omega, ⟨0, by simp⟩, ?_, Or.inl (by simp)⟩
    intro k hk
    exact hpre k (by omega)
  | cons it items ih =>
    intro parts n hn hlt hpre
    cases it with
    | none =>
      rw [quickPassParts]
      obtain ⟨h1, ⟨m, hm⟩, h3, h4⟩ := ih parts n hn hlt hpre
      refine ⟨h1, ⟨m + 1, by simpa using hm⟩, h3, ?_⟩
      rcases h4 with h4 | h4 | h4
      · exact Or.inl (by simpa using h4)
      · exact Or.inr (Or.inl h4)
      · exact Or.inr (Or.inr h4)
    | some t =>
      rw [quickPassParts.eq_3]
      split
      · rename_i hstop
        refine ⟨by simp; omega, ⟨1, by simp⟩, ?_, ?_⟩
        · intro k hk
          rw [List.length_append, List.length_singleton] at hk
          have hk2 : k + 1 ≤ parts.length := by omega
          rw [List.take_append_of_le_length hk2]
          exact hpre k hk2
        · rcases hstop with hs | hs
          · exact Or.inr (Or.inl hs)
          · refine Or.inr (Or.inr ?_)
            rw [List.length_append, List.length_singleton]
            omega
      · rename_i hcond
        push_neg at hcond
        obtain ⟨hw, hn2⟩ := hcond
        have hpre2 : ∀ k, k + 1 ≤ (parts ++ [strip t]).length →
            current_words ((parts ++ [strip t]).take (k + 1)) < 10000 ∧ k + 1 < 30 := by
          intro k hk
          rw [List.length_append, List.length_singleton] at hk
          rcases Nat.lt_or_ge (k + 1) (parts.length + 1) with hlt2 | hge
          · have hk2 : k + 1 ≤ parts.length := by omega
            rw [List.take_append_of_le_length hk2]
            exact hpre k hk2
          · have hk2 : k + 1 = parts.length + 1 := by omega
            rw [hk2, List.take_of_length_le (by simp)]
            constructor
            · exact hw
            · omega
        obtain ⟨h1, ⟨m, hm⟩, h3, h4⟩ := ih (parts ++ [strip t]) (n + 1)
          (by simp [hn]) (by omega) hpre2
        refine ⟨h1, ⟨m + 1, ?_⟩, h3, ?_⟩
        · rw [hm, List.take_succ_cons]
          simp
        · rcases h4 with h4 | h4 | h4
          · refine Or.inl ?_
            rw [h4]
            simp
          · exact Or.inr (Or.inl h4)
          · exact Or.inr (Or.inr h4)

/-- C8: the quick pass processes content items in document order and
stops at the caps: the Partial artifact's parts are the stripped texts
of the successfully decoded items of some prefix of the document, at
most 30 of them; every proper prefix of the parts is below the
10000-word target (the pass stopped at the first item meeting it); and
the pass stops early only for a reason — either it consumed the whole
document, or the word target was reached, or exactly 30 items were
processed. -/
theorem extract_text_fast_quick_caps (items : List (Option Str)) :
    (extract_text_fast_parts items).length ≤ 30
    ∧ (∃ m, extract_text_fast_parts items
        = ((items.take m).filterMap id).map strip)
    ∧ (∀ k, k + 1 < (extract_text_fast_parts items).length →
        current_words ((extract_text_fast_parts items).take (k + 1)) < 10000)
    ∧ (extract_text_fast_parts items = (items.filterMap id).map strip
        ∨ 10000 ≤ current_words (extract_text_fast_parts items)
        ∨ (extract_text_fast_parts items).length = 30) := by
  obtain ⟨h1, ⟨m, hm⟩, h3, h4⟩ := quickPassParts_spec items [] 0 rfl (by omega)
    (by intro k hk; simp at hk)
  refine ⟨h1, ⟨m, by simpa using hm⟩, fun k hk => (h3 k hk).1, ?_⟩
  rcases h4 with h4 | h4 | h4
  · exact Or.inl (by simpa using h4)
  · exact Or.inr (Or.inl h4)
  · exact Or.inr (Or.inr h4)

end Pireader

namespace Pireader

/-! ## Chapter cleanup (`extract_chapters_from_epub`, book.py lines 68-78)

The candidate titles collected from the table of contents or the
heading scan are cleaned: strip, drop empties, deduplicate by exact
match with a `seen` set, truncate to 20. -/

/-- The cleanup loop, with `seen` as the set of already-kept titles. -/
def cleanupChapters : List Str → List Str → List Str
  | _, [] => []
  | seen, ch :: rest =>
    if strip ch = [] ∨ strip ch ∈ seen then cleanupChapters seen rest
    else strip ch :: cleanupChapters (strip ch :: seen) rest

/-- The cleaned chapter list of `extract_chapters_from_epub`. -/
def extract_chapters_clean (chs : List Str) : List Str :=
  (cleanupChapters [] chs).take 20

/-- Deduplication in the spec's words: keep the first occurrence of
each title, dropping the later ones. -/
def dedupFirst : List Str → List Str
  | [] => []
  | x :: xs => x :: dedupFirst (xs.filter (fun y => y ≠ x))
termination_by l => l.length
decreasing_by
  have h := List.length_filter_le (fun y => decide (y ≠ x)) xs
  simp only [List.length_cons]
  omega

/-- The chapter list as the spec describes it: trim, drop empties,
deduplicate preserving first-occurrence order, truncate to 20. -/
def spec_chapter_clean (chs : List Str) : List Str :=
  (dedupFirst ((chs.map strip).filter (fun c => !c.isEmpty))).take 20

theorem mem_dedupFirst {l : List Str} {y : Str} (h : y ∈ dedupFirst l) : y ∈ l := by
  induction l using dedupFirst.induct with
  | case1 => rw [dedupFirst.eq_1] at h; simp at h
  | case2 x xs ih =>
    rw [dedupFirst.eq_2] at h
    rcases List.mem_cons.mp h with h1 | h1
    · exact h1 ▸ List.mem_cons_self x _
    · exact List.mem_cons_of_mem x (List.mem_of_mem_filter (ih h1))

theorem nodup_dedupFirst (l : List Str) : (dedupFirst l).Nodup := by
  induction l using dedupFirst.induct with
  | case1 => rw [dedupFirst.eq_1]; simp
  | case2 x xs ih =>
    rw [dedupFirst.eq_2]
    refine List.nodup_cons.mpr ⟨?_, ih⟩
    intro hmem
    have := List.of_mem_filter (mem_dedupFirst hmem)
    simp at this

theorem cleanupChapters_eq_dedupFirst : ∀ (chs : List Str) (seen : List Str),
    cleanupChapters seen chs
      = dedupFirst ((chs.map strip).filter
          (fun c => !c.isEmpty && !(decide (c ∈ seen)))) := by
  intro chs
  induction chs with
  | nil =>
    intro seen
    rw [cleanupChapters]
    simp only [List.map_nil, List.filter_nil]
    rw [dedupFirst.eq_1]
  | cons ch rest ih =>
    intro seen
    rw [cleanupChapters.eq_2, List.map_cons, List.filter_cons]
    by_cases hskip : strip ch = [] ∨ strip ch ∈ seen
    · rw [if_pos hskip]
      have hcond : (!(strip ch).isEmpty && !(decide (strip ch ∈ seen))) = false := by
        rcases hskip with h | h
        · simp [h]
        · simp [h]
      rw [hcond]
      simp only [Bool.false_eq_true, if_false]
      exact ih seen
    · rw [if_neg hskip]
      push_neg at hskip
      obtain ⟨hne, hnotin⟩ := hskip
      have hcond : (!(strip ch).isEmpty && !(decide (strip ch ∈ seen))) = true := by
        simp [hnotin, List.isEmpty_iff, hne]
      rw [hcond]
      simp only [if_true]
      rw [dedupFirst.eq_2, ih (strip ch :: seen)]
      congr 1
      rw [List.filter_filter]
      congr 1
      apply List.filter_congr
      intro c hc
      simp only [List.mem_cons, decide_eq_true_eq]
      by_cases h1 : c.isEmpty <;> by_cases h2 : c ∈ seen <;> by_cases h3 : c = strip ch <;>
        simp [h1, h2, h3]

/-- C10: chapter detection returns at most 20 titles with no
duplicates, equal to the spec's description: trimmed titles, empties
dropped, deduplicated by exact match preserving first-occurrence
order, truncated to 20. -/
theorem extract_chapters_clean_spec (chs : List Str) :
    (extract_chapters_clean chs).length ≤ 20
    ∧ (extract_chapters_clean chs).Nodup
    ∧ extract_chapters_clean chs = spec_chapter_clean chs := by
  have heq : extract_chapters_clean chs = spec_chapter_clean chs := by
    rw [extract_chapters_clean, spec_chapter_clean, cleanupChapters_eq_dedupFirst]
    congr 2
    apply List.filter_congr
    intro c hc
    simp
  refine ⟨?_, ?_, heq⟩
  · rw [extract_chapters_clean]
    exact List.length_take_le 20 _
  · rw [heq, spec_chapter_clean]
    exact (nodup_dedupFirst _).sublist (List.take_sublist _ _)

end Pireader

namespace Pireader

/-! ## Promotion of the full page set (main.py `check_background_processing`)

The reader state keeps the current book path, the active page list and
the 0-based current page index (a Python `int`, modelled as `Int`). -/

structure ReaderState where
  book_path : Str
  pages : List (List Str)
  chapters : List Str
  current_page : Int
deriving DecidableEq

structure ProcessingResult where
  book_path : Str
  pages : List (List Str)
  chapters : List Str
deriving DecidableEq

/-- `check_background_processing` (main.py lines 114-136): when a
completion message for the currently open book arrives, swap in the new
page set and clamp the current page to the new last page when it is out
of range.  Returns the updated state and whether an update happened. -/
def check_background_processing (st : ReaderState) (result : Option ProcessingResult) :
    ReaderState × Bool :=
  match result with
  | none => (st, false)
  | some r =>
    if r.book_path = st.book_path then
      ({ st with
          pages := r.pages
          chapters := r.chapters
          current_page :=
            if (r.pages.length : Int) ≤ st.current_page then (r.pages.length : Int) - 1
            else st.current_page },
        true)
    else (st, false)

/-- C9: when the completed full page set replaces the partial one for
the currently open book, the current page index is preserved when still
in range and clamped to the last page when not; it is never reset to
the first page (for a non-trivial position and a non-empty new page
set). -/
theorem check_background_processing_clamp (st : ReaderState) (r : ProcessingResult)
    (hmatch : r.book_path = st.book_path) :
    (check_background_processing st (some r)).1.pages = r.pages
    ∧ (st.current_page < (r.pages.length : Int) →
        (check_background_processing st (some r)).1.current_page = st.current_page)
    ∧ ((r.pages.length : Int) ≤ st.current_page →
        (check_background_processing st (some r)).1.current_page
          = (r.pages.length : Int) - 1)
    ∧ ((check_background_processing st (some r)).1.current_page = 0 →
        st.current_page = 0 ∨ r.pages.length = 1) := by
  rw [check_background_processing]
  rw [if_pos hmatch]
  refine ⟨rfl, ?_, ?_, ?_⟩
  · intro h
    simp only
    rw [if_neg (by omega)]
  · intro h
    simp only
    rw [if_pos h]
  · intro h
    simp only at h
    split at h
    · rename_i hle
      right
      omega
    · left
      exact h

def c9State : ReaderState :=
  { book_path := "b".data, pages := List.replicate 50 [("x".data)],
    chapters := [], current_page := 49 }

def c9Result : ProcessingResult :=
  { book_path := "b".data, pages := List.replicate 300 [("x".data)],
    chapters := [] }

set_option maxRecDepth 10000 in
/-- C9 witness: a position at index 49 (page 50) of a 50-page Partial
stays at index 49 when the Full artifact has 300 pages. -/
theorem check_background_processing_witness :
    c9Result.book_path = c9State.book_path
    ∧ (check_background_processing c9State (some c9Result)).1.current_page
        = c9State.current_page :=
  ⟨by decide,
    (check_background_processing_clamp c9State c9Result (by decide)).2.1 (by decide)⟩

end Pireader

namespace Pireader

/-! ## Bookmarks (bookmarks.py `BookmarkManager`)

Bookmark files are named by `md5(book_path)[:16]`; the model keys the
on-disk store by the book path itself (the hash is injective in
practice).  A stored file holds the pair `(book_path, page_num)`; a
`none` value models an unreadable/corrupt file (the `except` path).
`save_bookmark_async` runs `json.dump` and then the in-memory cache
update inside one `try`: both happen on a successful write (`writeOk =
true`) and neither on a failed one. -/

structure BookmarkState where
  cache : List (Str × Int)
  fs : List (Str × Option (Str × Int))
deriving DecidableEq

/-- `load_bookmark`: the in-memory cache wins; otherwise read the file,
check its recorded book path, cache and return its page; default 1. -/
def load_bookmark (st : BookmarkState) (path : Str) : Int × BookmarkState :=
  match st.cache.lookup path with
  | some p => (p, st)
  | none =>
    match st.fs.lookup path with
    | some (some (bp, page)) =>
      if bp = path then (page, { st with cache := (path, page) :: st.cache })
      else (1, st)
    | _ => (1, st)

/-- The body of `save_bookmark_async`'s background thread: on a
successful durable write the file and the in-memory cache are both
updated; on a failed write the `except` swallows the error and nothing
changes. -/
def save_bookmark (st : BookmarkState) (path : Str) (page : Int)
    (writeOk : Bool) : BookmarkState :=
  if writeOk then
    { cache := (path, page) :: st.cache,
      fs := (path, some (path, page)) :: st.fs }
  else st

/-- C4 (amended): after the background save completes successfully, a
same-process load returns the saved page: the in-memory value is
updated together with the durable write. -/
theorem load_after_successful_save (st : BookmarkState) (path : Str) (page : Int) :
    (load_bookmark (save_bookmark st path page true) path).1 = page := by
  rw [save_bookmark, if_pos rfl, load_bookmark]
  simp [List.lookup]

/-- C4 witness: the amended theorem at a concrete state. -/
theorem load_after_successful_save_witness :
    (load_bookmark (save_bookmark ⟨[], []⟩ ("b".data) 5 true) ("b".data)).1 = 5 :=
  load_after_successful_save ⟨[], []⟩ ("b".data) 5

/-- C4 counterexample: when the durable write fails, the in-memory
value is not updated (the cache assignment sits inside the `try`, after
`json.dump`), so a subsequent load returns the default 1, not the saved
page. -/
theorem load_after_failed_save_ne :
    (load_bookmark (save_bookmark ⟨[], []⟩ ("b".data) 5 false) ("b".data)).1 ≠ 5 := by
  decide

end Pireader

namespace Pireader

/-! ## The persisted cache (book.py `extract_text_fast`, main.py
`refresh_current_book`)

`extract_text_fast` names the cache file
`md5(f"{path}_{mtime}_{size}")[:16] + ".pkl.gz"`, while
`refresh_current_book` deletes `md5(path)[:16] + ".pkl.gz"`.  The model
keys the store by the un-hashed key string (the truncated hash is
injective in practice, so distinct key strings name distinct files);
`mtime` and `size` are modelled as integers.  A stored value of `none`
models a file that fails to unpickle (the `except` path of the cache
read). -/

structure CacheData where
  text : Str
  pages : List (List Str)
  chapters : List Str
  partialFlag : Bool
deriving DecidableEq

/-- The cache key of `extract_text_fast` (book.py line 94):
`f"{path}_{mtime}_{size}"`. -/
def extract_cache_key (path : Str) (mtime size : Nat) : Str :=
  path ++ '_' :: (Nat.repr mtime).data ++ '_' :: (Nat.repr size).data

/-- The key whose file `refresh_current_book` deletes (main.py line
147): the path alone. -/
def refresh_cache_key (path : Str) : Str := path

/-- How an open proceeds after the cache probe. -/
inductive OpenOutcome where
  | fullReady
  | partialContinue
  | uncached
deriving DecidableEq

/-- The cache probe of `extract_text_fast` (book.py lines 99-109): a
readable non-partial artifact is returned as-is; a partial one forces
re-processing; a corrupt or missing file is a miss. -/
def tryLoadCache (store : List (Str × Option CacheData)) (key : Str) : OpenOutcome :=
  match store.lookup key with
  | some (some d) => if d.partialFlag then .partialContinue else .fullReady
  | some none => .uncached
  | none => .uncached

/-- `os.remove` of the file named by a key. -/
def removeKey (store : List (Str × Option CacheData)) (k : Str) :
    List (Str × Option CacheData) :=
  store.filter (fun e => decide (e.1 ≠ k))

/-- A concrete cached Full artifact. -/
def c1Data : CacheData :=
  { text := "t".data, pages := [["p".data]], chapters := [], partialFlag := false }

/-- C1 (code bug): the Refresh Book action deletes the file named by
`md5(path)` while the artifact lives in the file named by
`md5(f"{path}_{mtime}_{size}")`: the two key strings always differ, so
the invalidation never removes the artifact, and reopening still finds
the Full artifact (state FullReady, not Uncached).  Shown in general
for the keys and concretely for the store. -/
theorem refresh_does_not_invalidate :
    (∀ (path : Str) (mtime size : Nat),
      refresh_cache_key path ≠ extract_cache_key path mtime size)
    ∧ tryLoadCache
        (removeKey [(extract_cache_key ("b".data) 1 2, some c1Data)]
          (refresh_cache_key ("b".data)))
        (extract_cache_key ("b".data) 1 2) = OpenOutcome.fullReady := by
  constructor
  · intro path mtime size heq
    have hlen := congrArg List.length heq
    rw [refresh_cache_key, extract_cache_key] at hlen
    simp at hlen
  · decide

end Pireader

namespace Pireader

/-! ## Observable file states during a cache store

Both cache writes (book.py lines 163-164 for the Partial store and
200-201 for the Full store) are
`with gzip.open(cache_file, 'wb'): pickle.dump(...)`: the file is
opened in place with truncation (`O_TRUNC`) and then written, with no
temporary file and no rename.  A concurrent reader that opens the file
between the truncation and the completion of the write observes a
truncated or partially-written file — modelled as the intermediate
`truncated` state of the write trace.  An atomic replace has no such
intermediate state. -/

inductive FileState where
  | absent
  | truncated
  | whole (d : CacheData)
deriving DecidableEq

/-- The observable file states of the code's in-place store, in order:
the previous content, the truncated file after `open(..., 'wb')`, the
complete new content after `pickle.dump` finishes. -/
def inPlaceStoreTrace (prev : FileState) (d : CacheData) : List FileState :=
  [prev, .truncated, .whole d]

/-- The observable file states of an atomic replace (write to a
temporary file, then rename): old content, then new content. -/
def atomicReplaceTrace (prev : FileState) (d : CacheData) : List FileState :=
  [prev, .whole d]

/-- A state a reader may observe without seeing a half-written
artifact: the file is absent or holds one whole artifact. -/
def isCleanState : FileState → Bool
  | .truncated => false
  | _ => true

/-- C3 counterexample: the code's store has an observable state that is
neither the old nor the new whole artifact: a reader can observe the
truncated file mid-store, so the store is not an atomic replace. -/
theorem inPlaceStore_not_atomic :
    (inPlaceStoreTrace (FileState.whole c1Data)
        { c1Data with partialFlag := true }).any (fun s => !isCleanState s) = true := by
  decide

/-- C3 (amended): the cache stores write in place (truncate, then
write), so a concurrent reader may observe a half-written file; such a
file fails to unpickle and the cache probe treats it as a miss, never
surfacing a partial artifact to the caller.  The truncated state is
always in the in-place trace and never in an atomic-replace trace, and
a corrupt entry always loads as a miss. -/
theorem inPlaceStore_truncated_observable (prev : FileState) (d : CacheData)
    (store : List (Str × Option CacheData)) (key : Str)
    (hprev : isCleanState prev = true)
    (hcorrupt : store.lookup key = some none) :
    FileState.truncated ∈ inPlaceStoreTrace prev d
    ∧ (∀ s ∈ atomicReplaceTrace prev d, isCleanState s = true)
    ∧ tryLoadCache store key = OpenOutcome.uncached := by
  refine ⟨by simp [inPlaceStoreTrace], ?_, ?_⟩
  · intro s hs
    rw [atomicReplaceTrace] at hs
    rcases List.mem_cons.mp hs with h1 | h1
    · exact h1 ▸ hprev
    · rw [List.mem_singleton] at h1
      subst h1
      rfl
  · rw [tryLoadCache, hcorrupt]

/-- C3 witness: the amended theorem at a concrete previous artifact,
new artifact and corrupt store entry. -/
theorem inPlaceStore_truncated_observable_witness :
    isCleanState (FileState.whole c1Data) = true
    ∧ ([(("k".data : Str), (none : Option CacheData))].lookup ("k".data) = some none)
    ∧ (FileState.truncated ∈ inPlaceStoreTrace (FileState.whole c1Data) c1Data
        ∧ (∀ s ∈ atomicReplaceTrace (FileState.whole c1Data) c1Data,
            isCleanState s = true)
        ∧ tryLoadCache [(("k".data : Str), (none : Option CacheData))] ("k".data)
            = OpenOutcome.uncached) :=
  ⟨by decide, by decide,
    inPlaceStore_truncated_observable (FileState.whole c1Data) c1Data
      [(("k".data : Str), (none : Option CacheData))] ("k".data)
      (by decide) (by decide)⟩

end Pireader
